import Mathlib

/-
Verification of the MusicSync real-time audio analysis pipeline.

This file gives a shallow embedding of the parts of the Rust sources that
the verified properties are about, and proves or refutes each property.

Modelling conventions, used throughout:
* f32 arithmetic is modelled exactly, by the rationals where the code only
  uses field operations and comparisons, and by the reals where the code
  uses square roots, logarithms or trigonometric functions.  Decimal
  literals of the source are taken at their decimal value.
* Wall-clock instants are modelled as natural numbers counting
  milliseconds; Instant.elapsed becomes saturating subtraction against a
  "now" parameter that is threaded explicitly.
* Rust VecDeque ring buffers become lists; machine integer casts such as
  "as u16" and "as u8" become explicit floor or truncation plus clamping,
  matching Rust saturating float-to-int cast semantics.
* Fallible or panicking source operations that are unreachable on the
  inputs considered (unwrap of a nonempty reduce, in-range slicing) are
  totalised with the usual junk values of Lean list primitives.
-/

namespace MusicSync

/-! ### Advanced threshold, from src/utils/audioprocessing/threshold.rs -/

/-- Settings of the advanced threshold, struct AdvancedSettings in
src/utils/audioprocessing/threshold.rs. -/
structure AdvancedSettings (α : Type) where
  mean_range : ℕ
  max_range : ℕ
  adaptive_threshold : α
  threshold_range : ℕ
  fixed_threshold : α

/-- Source defaults of AdvancedSettings (impl Default, threshold.rs). -/
def AdvancedSettings.standard {α : Type} [DivisionRing α] : AdvancedSettings α :=
  { mean_range := 6
    max_range := 3
    adaptive_threshold := 8 / 10
    threshold_range := 8
    fixed_threshold := 5 }

/-- State of struct AdvancedThreshold in
src/utils/audioprocessing/threshold.rs.  The field past_samples models
the VecDeque, listed front (most recent) first. -/
structure AdvancedThreshold (α : Type) where
  past_samples : List α
  last_onset : ℕ
  mean_range : ℕ
  max_range : ℕ
  dynamic_threshold : α
  threshold_range : ℕ
  fixed_threshold : α

/-- VecDeque push_front preceded by a pop_back once the length has reached
the capacity, as done inside AdvancedThreshold::is_above. -/
def pushFrontCapped {α : Type} (cap : ℕ) (v : α) (l : List α) : List α :=
  if cap ≤ l.length then v :: l.dropLast else v :: l

/-- AdvancedThreshold::with_settings: the ring starts as eight zeros in a
deque of capacity 12, and last_onset starts at 0. -/
def AdvancedThreshold.with_settings {α : Type} [LinearOrderedField α]
    (s : AdvancedSettings α) : AdvancedThreshold α :=
  { past_samples := List.replicate 8 0
    last_onset := 0
    mean_range := s.mean_range
    max_range := s.max_range
    dynamic_threshold := s.adaptive_threshold
    threshold_range := s.threshold_range
    fixed_threshold := s.fixed_threshold }

/-- AdvancedThreshold::is_above: increment last_onset, read the rolling
max, mean and norm over the front of the ring, push the value, reset
last_onset to 0 on a tentative onset, and report an onset exactly when
last_onset has just reached 2.  Returns the new state and the emitted
boolean. -/
def AdvancedThreshold.is_above {α : Type} [LinearOrderedField α]
    (t : AdvancedThreshold α) (value : α) : AdvancedThreshold α × Bool :=
  let lastOnset := t.last_onset + 1
  let max := (t.past_samples.take t.max_range).foldl (fun a b => Max.max a b) 0
  let mean := (t.past_samples.take t.mean_range).sum / (t.mean_range : α)
  let norm := (t.past_samples.take t.threshold_range).sum / (t.threshold_range : α)
  let past := pushFrontCapped 12 value t.past_samples
  let lastOnset :=
    if max ≤ value ∧ mean + norm * t.dynamic_threshold + t.fixed_threshold ≤ value then 0
    else lastOnset
  ({ t with past_samples := past, last_onset := lastOnset }, lastOnset == 2)

/-- Feeding a list of values through successive is_above calls, collecting
the emitted booleans in order. -/
def AdvancedThreshold.run {α : Type} [LinearOrderedField α]
    (t : AdvancedThreshold α) : List α → List Bool
  | [] => []
  | v :: rest =>
    let r := t.is_above v
    r.2 :: r.1.run rest

/-- State of the advanced threshold after the first n inputs of a list
have been consumed. -/
def AdvancedThreshold.stateAfter {α : Type} [LinearOrderedField α]
    (t : AdvancedThreshold α) (l : List α) (n : ℕ) : AdvancedThreshold α :=
  (l.take n).foldl (fun s v => (s.is_above v).1) t

/-! ### Frame assembler, from create_monitor_stream in
src/utils/audiodevices.rs

The capture callback keeps a VecDeque of interleaved samples.  On a chunk
of new samples it appends them, computes
n = (len + hop_size).saturating_sub(buffer_size) / hop_size  (all in
interleaved units, i.e. per-channel sizes times the channel count), and n
times hands the first buffer_size samples downstream and drains the first
hop_size samples. -/

/-- The inner (0..n).for_each loop of the capture callback: each iteration
emits the first B buffered samples as a frame and drops the first H. -/
def assembleLoop {α : Type} (B H : ℕ) : ℕ → List α → List (List α) × List α
  | 0, buf => ([], buf)
  | n + 1, buf =>
    let rest := assembleLoop B H n (buf.drop H)
    (buf.take B :: rest.1, rest.2)

/-- One capture callback invocation: append the chunk, compute the frame
count by the saturating formula of the source, and run the loop. -/
def processChunk {α : Type} (B H : ℕ) (buf chunk : List α) :
    List (List α) × List α :=
  let buf := buf ++ chunk
  assembleLoop B H ((buf.length + H - B) / H) buf

/-- Running the capture callback over a whole list of chunks, collecting
every frame handed downstream, in order. -/
def runChunks {α : Type} (B H : ℕ) (buf : List α) : List (List α) → List (List α)
  | [] => []
  | c :: rest =>
    let r := processChunk B H buf c
    r.1 ++ runChunks B H r.2 rest

/-! ### Casting helpers shared by the light sinks -/

/-- Rust float-to-integer truncation (toward zero). -/
def truncQ (q : ℚ) : ℤ :=
  if 0 ≤ q then ⌊q⌋ else ⌈q⌉

/-- Rust f32 % operator: remainder with the sign of the dividend. -/
def remQ (x y : ℚ) : ℚ :=
  x - y * truncQ (x / y)

/-- Rust f32::round: round to nearest, ties away from zero. -/
def roundQ (q : ℚ) : ℤ :=
  if 0 ≤ q then ⌊q + 1 / 2⌋ else ⌈q - 1 / 2⌉

/-- Rust saturating cast from f32 to u16 (clamp into 0..=65535, then
truncate toward zero). -/
def asU16 (q : ℚ) : ℕ :=
  min 65535 (truncQ q).toNat

/-- Rust saturating cast from f32 to u8 after f32::round. -/
def roundAsU8 (q : ℚ) : ℕ :=
  min 255 (roundQ q).toNat

/-- Rust f32::clamp(lo, hi). -/
def clampQ (lo hi q : ℚ) : ℚ :=
  max lo (min hi q)

/-- Big-endian serialisation of a 16-bit value, BufMut::put_u16. -/
def be16 (n : ℕ) : List ℕ :=
  [n / 256, n % 256]

/-- Saturating 16-bit addition, u16::saturating_add. -/
def satAdd16 (a b : ℕ) : ℕ :=
  min 65535 (a + b)

/-- Saturating 8-bit addition, u8::saturating_add. -/
def satAdd8 (a b : ℕ) : ℕ :=
  min 255 (a + b)

/-! ### Envelopes, from src/utils/lights/envelope.rs

Instants are modelled as natural numbers of milliseconds; get_value takes
the current instant as an explicit argument. -/

/-- Linear envelope, struct FixedDecayEnvelope: stores trigger time,
decay length (as milliseconds) and strength. -/
structure FixedDecayEnvelope where
  trigger_time : ℕ
  length : ℕ
  strength : ℚ

/-- FixedDecayEnvelope::init: zero strength, triggered at creation. -/
def FixedDecayEnvelope.init (decay : ℕ) (now : ℕ) : FixedDecayEnvelope :=
  { trigger_time := now, length := decay, strength := 0 }

/-- Envelope::trigger for FixedDecayEnvelope. -/
def FixedDecayEnvelope.trigger (e : FixedDecayEnvelope) (now : ℕ) (strength : ℚ) :
    FixedDecayEnvelope :=
  { e with trigger_time := now, strength := strength }

/-- Envelope::get_value for FixedDecayEnvelope:
strength - strength * (elapsed millis / length millis), clamped below at 0. -/
def FixedDecayEnvelope.get_value (e : FixedDecayEnvelope) (now : ℕ) : ℚ :=
  let value := e.strength - e.strength * (((now - e.trigger_time : ℕ) : ℚ) / (e.length : ℚ))
  if 0 < value then value else 0

/-- Exponential-style envelope, struct DynamicDecayEnvelope: stores
trigger time, decay rate per second and strength. -/
structure DynamicDecayEnvelope where
  trigger_time : ℕ
  decay_per_second : ℚ
  strength : ℚ

/-- DynamicDecayEnvelope::init. -/
def DynamicDecayEnvelope.init (decay_per_second : ℚ) (now : ℕ) : DynamicDecayEnvelope :=
  { trigger_time := now, decay_per_second := decay_per_second, strength := 0 }

/-- Envelope::trigger for DynamicDecayEnvelope. -/
def DynamicDecayEnvelope.trigger (e : DynamicDecayEnvelope) (now : ℕ) (strength : ℚ) :
    DynamicDecayEnvelope :=
  { e with trigger_time := now, strength := strength }

/-- Envelope::get_value for DynamicDecayEnvelope:
strength - strength * elapsed seconds * rate, clamped below at 0. -/
def DynamicDecayEnvelope.get_value (e : DynamicDecayEnvelope) (now : ℕ) : ℚ :=
  let value := e.strength -
    e.strength * (((now - e.trigger_time : ℕ) : ℚ) / 1000) * e.decay_per_second
  if 0 < value then value else 0

/-! ### Colour conversion, from src/utils/lights/color.rs (the part used
by the colour envelope) -/

/-- Conversion rgb_to_hsv from color.rs, on 16-bit channels. -/
def rgb_to_hsv (rgb : ℕ × ℕ × ℕ) : ℚ × ℚ × ℚ :=
  let r : ℚ := (rgb.1 : ℚ) / 65535
  let g : ℚ := (rgb.2.1 : ℚ) / 65535
  let b : ℚ := (rgb.2.2 : ℚ) / 65535
  let c_max := Max.max (Max.max r g) b
  let c_min := Min.min (Min.min r g) b
  let delta := c_max - c_min
  let h : ℚ :=
    if delta = 0 then 0
    else if r = c_max then
      let check := 60 * remQ ((g - b) / delta) 6
      if 0 ≤ check then check else 360 + check
    else if g = c_max then 60 * ((b - r) / delta + 2)
    else if b = c_max then 60 * ((r - g) / delta + 4)
    else 0
  let s : ℚ := if c_max = 0 then 0 else delta / c_max
  (h, s, c_max)

/-- Colour envelope, struct ColorEnvelope from envelope.rs: HSV endpoint
colours plus an embedded fixed-decay envelope. -/
structure ColorEnvelope where
  start_color : ℚ × ℚ × ℚ
  end_color : ℚ × ℚ × ℚ
  envelope : FixedDecayEnvelope

/-- ColorEnvelope::init. -/
def ColorEnvelope.init (from_color to_color : ℕ × ℕ × ℕ) (length : ℕ) (now : ℕ) :
    ColorEnvelope :=
  { start_color := rgb_to_hsv from_color
    end_color := rgb_to_hsv to_color
    envelope := FixedDecayEnvelope.init length now }

/-- ColorEnvelope::trigger forwards to the embedded envelope. -/
def ColorEnvelope.trigger (e : ColorEnvelope) (now : ℕ) (strength : ℚ) : ColorEnvelope :=
  { e with envelope := e.envelope.trigger now strength }

/-- Conversion hsv_to_rgb from color.rs, yielding 16-bit channels. -/
def hsv_to_rgb (hsv : ℚ × ℚ × ℚ) : ℕ × ℕ × ℕ :=
  let c := hsv.2.2 * hsv.2.1
  let x := c * (1 - |remQ (hsv.1 / 60) 2 - 1|)
  let m := hsv.2.2 - c
  let rgb : ℚ × ℚ × ℚ :=
    if hsv.1 < 60 then (c, x, 0)
    else if hsv.1 < 120 then (x, c, 0)
    else if hsv.1 < 180 then (0, c, x)
    else if hsv.1 < 240 then (0, x, c)
    else if hsv.1 < 300 then (x, 0, c)
    else if hsv.1 < 360 then (c, 0, x)
    else (0, 0, 0)
  (asU16 ((rgb.1 + m) * 65535), asU16 ((rgb.2.1 + m) * 65535), asU16 ((rgb.2.2 + m) * 65535))

/-- Interpolation interpolate_hsv from color.rs. -/
def interpolate_hsv (a b : ℚ × ℚ × ℚ) (t : ℚ) : ℚ × ℚ × ℚ :=
  (a.1 + t * (b.1 - a.1), a.2.1 + t * (b.2.1 - a.2.1), a.2.2 + t * (b.2.2 - a.2.2))

/-- ColorEnvelope::get_color: interpolate in HSV from the start colour to
the end colour as the envelope runs down, then convert to 16-bit RGB. -/
def ColorEnvelope.get_color (e : ColorEnvelope) (now : ℕ) : ℕ × ℕ × ℕ :=
  let t := e.envelope.strength - e.envelope.get_value now
  hsv_to_rgb (interpolate_hsv e.start_color e.end_color t)

/-! ### Onset events, enum Onset from src/utils/audioprocessing/mod.rs
(the variant set consumed by the bridge sink in src/utils/lights/hue.rs) -/

/-- Tagged onset event: enum Onset of audioprocessing/mod.rs. -/
inductive Onset where
  | Full (strength : ℚ)
  | Atmosphere (strength : ℚ) (index : ℕ)
  | Note (strength : ℚ) (index : ℕ)
  | Kick (strength : ℚ)
  | Snare (strength : ℚ)
  | Hihat (strength : ℚ)
  | Raw (value : ℚ)
deriving DecidableEq

namespace hue

/-! ### Bridge sink, from src/utils/lights/hue.rs -/

/-- One light channel of an entertainment area (only the channel id is
read by the sink). -/
structure AreaChannel where
  channel_id : ℕ

/-- Entertainment area descriptor: the UTF-8 bytes of its id and its
channels. -/
structure EntertainmentArea where
  id : List ℕ
  channels : List AreaChannel

/-- Settings of the bridge sink, struct LightSettings in hue.rs. -/
structure LightSettings where
  drum_decay_rate : ℚ
  note_decay : ℕ
  hihat_decay : ℕ
  fullband_decay : ℕ
  fullband_color : (ℕ × ℕ × ℕ) × (ℕ × ℕ × ℕ)
  color_envelope : Bool

/-- Source defaults of LightSettings (impl Default, hue.rs); durations in
milliseconds. -/
def LightSettings.standard : LightSettings :=
  { drum_decay_rate := 8
    note_decay := 100
    hihat_decay := 80
    fullband_decay := 250
    fullband_color := ((65535, 0, 0), (2, 0, 1))
    color_envelope := false }

/-- Mutable state of the bridge sink, struct State in hue.rs.  The scratch
BytesMut buffer is not modelled: poll clears it before use and returns a
fresh datagram. -/
structure State where
  drum : DynamicDecayEnvelope
  hihat : FixedDecayEnvelope
  note : FixedDecayEnvelope
  fullband : ColorEnvelope
  preamble : List ℕ
  channels : List ℕ
  color_envelope : Bool

/-- The nine ASCII bytes of the protocol magic "HueStream". -/
def hueStreamMagic : List ℕ :=
  [72, 117, 101, 83, 116, 114, 101, 97, 109]

/-- State::with_settings: builds the cached datagram prefix
("HueStream", api version 2, six reserved zero bytes, the area id bytes)
and the channel id list, and initialises the four envelopes. -/
def State.with_settings (area : EntertainmentArea) (settings : LightSettings)
    (now : ℕ) : State :=
  { drum := DynamicDecayEnvelope.init settings.drum_decay_rate now
    hihat := FixedDecayEnvelope.init settings.hihat_decay now
    note := FixedDecayEnvelope.init settings.note_decay now
    fullband := ColorEnvelope.init settings.fullband_color.1 settings.fullband_color.2
      settings.fullband_decay now
    preamble := hueStreamMagic ++ [2, 0, 0, 0, 0, 0, 0] ++ area.id
    channels := area.channels.map (fun c => c.channel_id)
    color_envelope := settings.color_envelope }

/-- Pollable::poll for State, as in hue.rs: the cached prefix, then one
entry per channel.  In colour-envelope mode each entry is the channel id
followed by the interpolated fullband colour; otherwise it is the channel
id followed by three big-endian 16-bit colour words derived from the
drum, hihat and note envelopes (red plus white, white, blue plus white,
with saturating addition). -/
def State.poll (st : State) (now : ℕ) : List ℕ :=
  st.preamble ++
    (if st.color_envelope then
      (st.channels.map (fun id =>
        let color := st.fullband.get_color now
        [id] ++ be16 color.1 ++ be16 color.2.1 ++ be16 color.2.2)).flatten
    else
      let r := asU16 (st.drum.get_value now * 65535)
      let white := asU16 (st.hihat.get_value now * 65535) / 2 ^ 3
      let b := asU16 (st.note.get_value now * 65535) / 2 ^ 1
      (st.channels.map (fun id =>
        [id] ++ be16 (satAdd16 r white) ++ be16 white ++ be16 (satAdd16 b white))).flatten)

/-- LightService::process_onset for BridgeConnection (hue.rs): Full
triggers the fullband colour envelope, Kick the drum envelope, Hihat the
hihat envelope and Snare the note envelope, each only when the incoming
strength strictly exceeds the envelope's current value; all other events
leave the state untouched. -/
def State.process_onset (st : State) (now : ℕ) : Onset → State
  | .Full volume =>
    if st.fullband.envelope.get_value now < volume then
      { st with fullband := st.fullband.trigger now volume }
    else st
  | .Kick volume =>
    if st.drum.get_value now < volume then
      { st with drum := st.drum.trigger now volume }
    else st
  | .Hihat volume =>
    if st.hihat.get_value now < volume then
      { st with hihat := st.hihat.trigger now volume }
    else st
  | .Snare volume =>
    if st.note.get_value now < volume then
      { st with note := st.note.trigger now volume }
    else st
  | _ => st

end hue

namespace wled

/-! ### Onset LED-strip sink, from src/utils/lights/wled.rs -/

/-- Mutable state of the onset LED sink, struct OnsetState in wled.rs
(scratch buffer again not modelled). -/
structure OnsetState where
  led_count : ℕ
  brightness : ℚ
  rgbw : Bool
  drum_envelope : DynamicDecayEnvelope
  note_envelope : DynamicDecayEnvelope
  hihat_envelope : FixedDecayEnvelope
  preamble : List ℕ

/-- OnsetState::init: two-byte prefix (mode 0x03 for RGBW or 0x02 for
RGB, then the timeout seconds) and hard-coded envelope parameters. -/
def OnsetState.init (led_count : ℕ) (rgbw : Bool) (brightness : ℚ) (timeout : ℕ)
    (now : ℕ) : OnsetState :=
  { led_count := led_count
    brightness := brightness
    rgbw := rgbw
    drum_envelope := DynamicDecayEnvelope.init 2 now
    note_envelope := DynamicDecayEnvelope.init 4 now
    hihat_envelope := FixedDecayEnvelope.init 200 now
    preamble := if rgbw then [3, timeout] else [2, timeout] }

/-- One pixel of OnsetState::poll: red and blue extend from the centre
outward with the drum and note envelopes, white extends inward from the
ends with the hihat envelope; all scaled by the master brightness,
rounded, and mixed saturating into RGB when no dedicated white channel
exists. -/
def onsetPixel (st : OnsetState) (red blue white : ℚ) (i : ℕ) : List ℕ :=
  let r := roundAsU8 (clampQ 0 1 (red - i) * 255 * st.brightness)
  let b := roundAsU8 (clampQ 0 1 (blue - i) * 255 * st.brightness)
  let w := roundAsU8 (clampQ 0 1 (white - ((st.led_count / 2 - i : ℕ) : ℚ)) * 255 * st.brightness)
  if st.rgbw then [r, 0, b, w] else [satAdd8 r w, w, satAdd8 b w]

/-- Pollable::poll for OnsetState: the two-byte prefix, then the half
pixel list mirrored (reversed copy first) around the strip centre. -/
def OnsetState.poll (st : OnsetState) (now : ℕ) : List ℕ :=
  let red := st.drum_envelope.get_value now * st.led_count * (5 / 10)
  let blue := st.note_envelope.get_value now * st.led_count * (5 / 10)
  let white := st.hihat_envelope.get_value now * st.led_count * (2 / 10)
  let colors := (List.range (st.led_count / 2)).map (onsetPixel st red blue white)
  st.preamble ++ (colors.reverse ++ colors).flatten

end wled

/-! ### Rust max_by argmax, as used by both onset detectors

Iterator::max_by returns the last maximal element, so on ties the
largest index wins. -/

/-- Index of the maximum of a list, with Rust Iterator::max_by semantics:
the fold keeps the later element whenever the accumulated one is not
strictly greater, so the returned index is the last one attaining the
maximum.  Empty input (an unwrap panic in the source) yields 0. -/
def indexOfMax {α : Type} [LinearOrder α] (l : List α) : ℕ :=
  match l.enum with
  | [] => 0
  | p :: ps => (ps.foldl (fun acc q => if acc.2 ≤ q.2 then q else acc) p).1

/-! ### Analysis buffer, from src/utils/audioprocessing/mod.rs

Real-valued part of the model: windows, the real-input DFT magnitude
spectrum, and Buffer::process_raw. -/

/-- Analysis window type, enum WindowType. -/
inductive WindowType where
  | Hann
  | FlatTop
  | Triangular

/-- Processing settings, struct ProcessingSettings (sizes in samples). -/
structure ProcessingSettings where
  sample_rate : ℕ
  hop_size : ℕ
  buffer_size : ℕ
  fft_size : ℕ
  window_type : WindowType

/-- Source defaults of ProcessingSettings. -/
def ProcessingSettings.standard : ProcessingSettings :=
  { sample_rate := 48000, hop_size := 480, buffer_size := 1024, fft_size := 2048,
    window_type := .Hann }

noncomputable section

/-- Analysis window coefficients, fn window in audioprocessing/mod.rs. -/
def window (length : ℕ) : WindowType → List ℝ
  | .Hann => (List.range length).map (fun n =>
      0.5 * (1 - Real.cos (2 * Real.pi * (n : ℝ) / (length : ℝ))))
  | .FlatTop => (List.range length).map (fun n =>
      0.21557895 - 0.41663158 * Real.cos (2 * Real.pi * (n : ℝ) / (length : ℝ))
        + 0.27726316 * Real.cos (4 * Real.pi * (n : ℝ) / (length : ℝ))
        - 0.083578947 * Real.cos (6 * Real.pi * (n : ℝ) / (length : ℝ))
        + 0.006947368 * Real.cos (8 * Real.pi * (n : ℝ) / (length : ℝ)))
  | .Triangular => (List.range length).map (fun n =>
      1 - |2 * (n : ℝ) / (length : ℝ) - 1|)

/-- Rust zip-and-mutate over two sequences (apply_window_mono and the
freq-bin accumulation): the common prefix is combined with f, the
remainder of the first list is kept unchanged. -/
def zipWithKeep (f : ℝ → ℝ → ℝ) (xs ys : List ℝ) : List ℝ :=
  List.zipWith f xs ys ++ xs.drop ys.length

/-- State of struct Buffer after processing: per-channel contents (the
magnitude spectra after the FFT stage), the mono mixdown, the averaged
magnitude spectrum, and the scalar peak and rms. -/
structure BufferState where
  f32_samples : List (List ℝ)
  mono_samples : List ℝ
  freq_bins : List ℝ
  peak : ℝ
  rms : ℝ

namespace Buffer

/-- Buffer::zeros: every field refilled with zeros at its capacity. -/
def zeros (channels : ℕ) (s : ProcessingSettings) : BufferState :=
  { f32_samples := List.replicate channels (List.replicate s.fft_size 0)
    mono_samples := List.replicate s.buffer_size 0
    freq_bins := List.replicate (s.fft_size / 2 + 1) 0
    peak := 0
    rms := 0 }

/-- Buffer::split_channels: channel c receives the interleaved samples at
indices congruent to c modulo the channel count. -/
def split_channels (channels : ℕ) (data : List ℝ) : List (List ℝ) :=
  (List.range channels).map (fun c =>
    data.enum.filterMap (fun p => if p.1 % channels = c then some p.2 else none))

/-- Buffer::collapse_mono: the mono buffer (of capacity buffer_size) is
zeroed and every channel adds its samples divided by the channel count. -/
def collapse_mono (channels : ℕ) (bufferSize : ℕ) (chans : List (List ℝ)) : List ℝ :=
  chans.foldl (fun acc ch => zipWithKeep (fun m s => m + s / (channels : ℝ)) acc ch)
    (List.replicate bufferSize 0)

/-- Per-channel root of the mean square, the inner expression of
Buffer::rms. -/
def channelRms (ch : List ℝ) : ℝ :=
  Real.sqrt (ch.foldl (fun acc e => acc + e * e) 0 / (ch.length : ℝ))

/-- Buffer::rms: the mean across channels of the per-channel rms. -/
def rms (channels : ℕ) (chans : List (List ℝ)) : ℝ :=
  (chans.map channelRms).sum / (channels : ℝ)

/-- Per-channel fold of Buffer::peak: running maximum of absolute values
starting from 0. -/
def channelPeak (ch : List ℝ) : ℝ :=
  ch.foldl (fun mx f => if mx < |f| then |f| else mx) 0

/-- Iterator::reduce with f32::max; the unwrap on an empty channel list is
totalised to 0. -/
def reduceMax : List ℝ → ℝ
  | [] => 0
  | x :: xs => xs.foldl (fun a b => Max.max a b) x

/-- Buffer::peak: maximum across channels of the per-channel peak. -/
def peak (chans : List (List ℝ)) : ℝ :=
  reduceMax (chans.map channelPeak)

/-- Scaled magnitude spectrum of one channel: the real-input forward DFT
of realfft, followed by sqrt of (re^2 + im^2) / n with n the padded
length, exactly as Buffer::fft stores it back into f32_samples. -/
def dftMag (fftSize : ℕ) (x : List ℝ) : List ℝ :=
  (List.range (fftSize / 2 + 1)).map (fun k =>
    let re := (x.enum.map (fun p =>
      p.2 * Real.cos (2 * Real.pi * (k : ℝ) * (p.1 : ℝ) / (fftSize : ℝ)))).sum
    let im := (x.enum.map (fun p =>
      -(p.2 * Real.sin (2 * Real.pi * (k : ℝ) * (p.1 : ℝ) / (fftSize : ℝ))))).sum
    Real.sqrt ((re * re + im * im) / (fftSize : ℝ)))

/-- Buffer::fft: window each channel, pad to fft_size, take magnitude
spectra, then average them into freq_bins (which has capacity
fft_size / 2 + 1). -/
def fftStage (channels : ℕ) (s : ProcessingSettings) (chans : List (List ℝ)) :
    List (List ℝ) × List ℝ :=
  let windowed := chans.map (fun ch => zipWithKeep (fun x w => x * w)
    ch (window s.buffer_size s.window_type))
  let padded := windowed.map (fun ch => ch ++ List.replicate (s.fft_size - ch.length) 0)
  let mags := padded.map (dftMag s.fft_size)
  let bins := mags.foldl (fun acc mg => zipWithKeep (fun b v => b + v / (channels : ℝ)) acc mg)
    (List.replicate (s.fft_size / 2 + 1) 0)
  (mags, bins)

open Classical in
/-- Buffer::process_raw: all-zero frames short-circuit through zeros;
otherwise deinterleave, mix down, compute rms and peak on the raw
channels, then run the windowed FFT stage. -/
def process_raw (channels : ℕ) (s : ProcessingSettings) (data : List ℝ) : BufferState :=
  if ∀ x ∈ data, x = 0 then zeros channels s
  else
    let chans := split_channels channels data
    let mono := collapse_mono channels s.buffer_size chans
    let r := rms channels chans
    let p := peak chans
    let fftres := fftStage channels s chans
    { f32_samples := fftres.1, mono_samples := mono, freq_bins := fftres.2,
      peak := p, rms := r }

end Buffer

/-! ### Mel filter bank, from src/utils/audioprocessing/mod.rs -/

/-- MelFilterBank::hertz_to_mel. -/
def hertz_to_mel (hertz : ℝ) : ℝ :=
  1127 * Real.log (1 + hertz / 700)

/-- MelFilterBank::mel_to_hertz. -/
def mel_to_hertz (mel : ℝ) : ℝ :=
  700 * (Real.exp (mel / 1127) - 1)

/-- Struct MelFilterBank: per-band triangular weight vectors plus the
band edge frequencies (in hertz, called points in the source). -/
structure MelFilterBank where
  filter : List (List ℝ)
  points : List ℝ
  fft_size : ℕ
  bands : ℕ
  sample_rate : ℕ
  max_frequency : ℕ

/-- MelFilterBank::init: bands + 2 points uniformly spaced on the mel
scale up to max_frequency, each band rising linearly over
start..mid and falling over mid..end (bin indices obtained by truncating
the frequency divided by the bin resolution). -/
def MelFilterBank.init (sample_rate fft_size bands max_frequency : ℕ) : MelFilterBank :=
  let num_points := bands + 2
  let mel_max := hertz_to_mel (max_frequency : ℝ)
  let step := mel_max / ((num_points - 1 : ℕ) : ℝ)
  let mel := (List.range num_points).map (fun i => mel_to_hertz ((i : ℝ) * step))
  let bin_res : ℝ := (sample_rate : ℝ) / (fft_size : ℝ)
  let filter := (List.range bands).map (fun m0 =>
    let start := ⌊mel.getD m0 0 / bin_res⌋₊
    let mid := ⌊mel.getD (m0 + 1) 0 / bin_res⌋₊
    let stop := ⌊mel.getD (m0 + 2) 0 / bin_res⌋₊
    (List.range (mid - start)).map (fun k => ((k : ℕ) : ℝ) / ((mid - start : ℕ) : ℝ)) ++
    (List.range (stop - mid)).map (fun k => ((stop - mid - k : ℕ) : ℝ) / ((stop - mid : ℕ) : ℝ)))
  { filter := filter
    points := mel
    fft_size := fft_size
    bands := bands
    sample_rate := sample_rate
    max_frequency := max_frequency }

/-- MelFilterBank::filter (the application method; named applyFilter here
because the struct field already carries the source name): band m sums
the spectrum slice starting at its start bin weighted by its vector; only
as many output entries are written as both the band list and the output
buffer provide, the tail of the output buffer being left untouched. -/
def MelFilterBank.applyFilter (bank : MelFilterBank) (freq_bins out : List ℝ) : List ℝ :=
  let bin_res : ℝ := (bank.sample_rate : ℝ) / (bank.fft_size : ℝ)
  let k := min bank.filter.length out.length
  (List.range k).map (fun m =>
    let band := bank.filter.getD m []
    let start := ⌊bank.points.getD m 0 / bin_res⌋₊
    (List.zipWith (fun f w => f * w) ((freq_bins.drop start).take band.length) band).sum) ++
  out.drop k

/-! ### SpecFlux onset detector, from
src/utils/audioprocessing/spectral_flux.rs -/

/-- Fixed percussion mask SNARE_MASK from spectral_flux.rs (82 mel bands). -/
def snareMask : List ℝ :=
  [0.2517875, 0.40162945, 0.6608701, 0.895559,
   1.0, 0.9941745, 0.89297336, 0.77627707,
   0.68870044, 0.6062603, 0.55628353, 0.46556687,
   0.44126529, 0.41894165, 0.42049137, 0.41696343,
   0.41548678, 0.44371694, 0.47437596, 0.44820136,
   0.40240806, 0.3569819, 0.33027217, 0.33291867,
   0.2950501, 0.2666286, 0.23969601, 0.24532156,
   0.23413229, 0.1845304, 0.15278703, 0.14658077,
   0.12533043, 0.12600358, 0.12842804, 0.10343659,
   0.080343366, 0.085119955, 0.08721107, 0.072455004,
   0.06042953, 0.054964475, 0.04232392, 0.037744675,
   0.04250465, 0.033505596, 0.029123895, 0.02615134,
   0.025658138, 0.022041397, 0.014772082, 0.013949036,
   0.015307835, 0.011997595, 0.00960505, 0.0074932203,
   0.0073791686, 0.006116907, 0.0046843905, 0.0035925682,
   0.0033158308, 0.0036108983, 0.0026803834, 0.0022112355,
   0.0018353146, 0.0020247328, 0.0014468391, 0.0011526725,
   0.0010442777, 0.0009913357, 0.0006724108, 0.00056849775,
   0.0004546819, 0.00034425044, 0.0002761672, 0.00024362215,
   0.00019974195, 0.00013049744, 0.0001049808, 8.013556e-05,
   5.3011227e-05, 5.1095893e-05]

/-- Fixed percussion mask KICK_MASK from spectral_flux.rs (82 mel bands). -/
def kickMask : List ℝ :=
  [0.92297435, 1.0, 0.8917986, 0.76588273,
   0.5980251, 0.43760094, 0.34817106, 0.29070562,
   0.26999202, 0.22773525, 0.20728031, 0.18475792,
   0.16161652, 0.15063743, 0.14271763, 0.12607518,
   0.11363953, 0.09974024, 0.097833805, 0.095392935,
   0.08108377, 0.06648338, 0.05280021, 0.047496855,
   0.047349576, 0.038194574, 0.030428723, 0.027094975,
   0.023655336, 0.019691972, 0.0148861585, 0.0154771805,
   0.01622049, 0.013770917, 0.010827841, 0.008700853,
   0.007739898, 0.0075239544, 0.006860751, 0.007028481,
   0.0036867769, 0.004646642, 0.0030300743, 0.002042459,
   0.0028471632, 0.002800305, 0.0025077746, 0.0019876803,
   0.0015344466, 0.0013753675, 0.0010342064, 0.0010727863,
   0.0010738191, 0.0007604331, 0.00038656426, 0.0002949998,
   0.00037564998, 0.000344716, 0.00031129658, 0.00020160488,
   0.00015570206, 0.00017598891, 0.00013784677, 8.852099e-05,
   6.481363e-05, 7.609808e-05, 6.517598e-05, 3.908605e-05,
   2.8887778e-05, 2.7541795e-05, 1.9517582e-05, 1.3512265e-05,
   1.2166234e-05, 8.8529105e-06, 1.0923741e-05, 6.057274e-06,
   7.040926e-06, 4.141735e-06, 2.8992185e-06, 2.847447e-06,
   2.0708724e-06, 2.122644e-06]

/-- Fixed percussion mask HIHAT_MASK from spectral_flux.rs (82 mel bands). -/
def hihatMask : List ℝ :=
  [0.5139305, 0.37839606, 0.44701898, 0.5303261,
   0.6035715, 0.63583946, 0.70866656, 0.75564235,
   0.8328448, 0.9175402, 0.8861456, 0.8689281,
   0.9091993, 0.8824723, 0.8501405, 0.8249181,
   0.8353149, 0.91006196, 0.94234896, 0.98516864,
   1.0, 0.8946662, 0.77944165, 0.7705315,
   0.79074574, 0.76528, 0.7683824, 0.7780476,
   0.7256422, 0.66321856, 0.60950035, 0.6096783,
   0.5495825, 0.5509193, 0.5803903, 0.55989105,
   0.5339321, 0.583082, 0.5928673, 0.56305873,
   0.5272662, 0.5109673, 0.4677784, 0.46388286,
   0.51907796, 0.45738363, 0.4401618, 0.4684424,
   0.47884384, 0.4174335, 0.3157647, 0.31549197,
   0.35048515, 0.33381835, 0.25910708, 0.24549969,
   0.22774297, 0.18911576, 0.17001644, 0.16411132,
   0.159972, 0.15275972, 0.12014305, 0.097435035,
   0.084355466, 0.078810595, 0.0703201, 0.06497539,
   0.054676216, 0.045141328, 0.039715063, 0.030685436,
   0.028849835, 0.02558493, 0.024115803, 0.021129861,
   0.016437387, 0.011777007, 0.010126779, 0.009737301,
   0.008309941, 0.007559927]

namespace lights

/-- Tagged onset event, enum Onset of src/utils/lights/mod.rs (the
variant set produced by the SpecFlux detector). -/
inductive Onset where
  | Full (strength : ℝ)
  | Atmosphere (strength : ℝ) (index : ℕ)
  | Note (strength : ℝ) (index : ℕ)
  | Drum (strength : ℝ)
  | Hihat (strength : ℝ)
  | Raw (value : ℝ)

end lights

/-- Struct ThresholdBankSettings of spectral_flux.rs: one advanced
threshold setting per score.  (In that file the adaptive coefficient
field is spelled dynamic_threshold; the struct definition in threshold.rs
calls it adaptive_threshold.) -/
structure ThresholdBankSettings where
  drum : AdvancedSettings ℝ
  hihat : AdvancedSettings ℝ
  note : AdvancedSettings ℝ
  full : AdvancedSettings ℝ

/-- Source defaults of ThresholdBankSettings. -/
def ThresholdBankSettings.standard : ThresholdBankSettings :=
  { drum := { (AdvancedSettings.standard : AdvancedSettings ℝ) with
      fixed_threshold := 2, adaptive_threshold := 0.4, mean_range := 5 }
    hihat := { (AdvancedSettings.standard : AdvancedSettings ℝ) with
      fixed_threshold := 5, adaptive_threshold := 0.55, mean_range := 3 }
    note := { (AdvancedSettings.standard : AdvancedSettings ℝ) with
      fixed_threshold := 2, adaptive_threshold := 0.4 }
    full := (AdvancedSettings.standard : AdvancedSettings ℝ) }

/-- Struct ThresholdBank of spectral_flux.rs: the four advanced
thresholds of the SpecFlux detector. -/
structure ThresholdBank where
  drum : AdvancedThreshold ℝ
  hihat : AdvancedThreshold ℝ
  note : AdvancedThreshold ℝ
  full : AdvancedThreshold ℝ

/-- ThresholdBank::with_settings. -/
def ThresholdBank.with_settings (s : ThresholdBankSettings) : ThresholdBank :=
  { drum := AdvancedThreshold.with_settings s.drum
    hihat := AdvancedThreshold.with_settings s.hihat
    note := AdvancedThreshold.with_settings s.note
    full := AdvancedThreshold.with_settings s.full }

/-- Struct SpecFlux: mel bank, previous and current compressed mel
spectra, and the threshold bank. -/
structure SpecFlux where
  filter_bank : MelFilterBank
  old_spectrum : List ℝ
  spectrum : List ℝ
  threshold : ThresholdBank

/-- SpecFlux::init: default mel bank settings (82 bands up to 20 kHz),
default thresholds, and zeroed spectra. -/
def SpecFlux.init (sample_rate fft_size : ℕ) : SpecFlux :=
  { filter_bank := MelFilterBank.init sample_rate fft_size 82 20000
    old_spectrum := List.replicate 82 0
    spectrum := List.replicate 82 0
    threshold := ThresholdBank.with_settings ThresholdBankSettings.standard }

/-- SpecFlux::detect: save the previous compressed spectrum, mel-filter
the incoming magnitude spectrum, compress with ln(1 + 0.1 x), take the
half-wave-rectified flux, reduce it to four masked scores, feed each
score to its advanced threshold and emit the raw hihat score plus the
onsets whose thresholds fired.  Returns the emitted events in emission
order together with the new detector state. -/
def SpecFlux.detect (sf : SpecFlux) (freq_bins : List ℝ) (peak rms : ℝ) :
    List lights.Onset × SpecFlux :=
  let old := sf.spectrum
  let lambda : ℝ := 0.1
  let filtered := sf.filter_bank.applyFilter freq_bins sf.spectrum
  let spectrum := filtered.map (fun x => Real.log (1 + x * lambda))
  let flux := List.zipWith (fun a b => ((b - a) + |b - a|) / 2) old spectrum
  let weight := flux.sum
  let drum_weight := (List.zipWith (fun d w => d * w) flux kickMask).sum
  let hihat_weight := (List.zipWith (fun d w => d * w) flux hihatMask).sum
  let note_weight := (List.zipWith (fun d w => d * w) flux snareMask).sum
  let fullR := sf.threshold.full.is_above weight
  let idx := indexOfMax freq_bins
  let drumR := sf.threshold.drum.is_above drum_weight
  let hihatR := sf.threshold.hihat.is_above hihat_weight
  let noteR := sf.threshold.note.is_above note_weight
  let onsets :=
    [lights.Onset.Raw hihat_weight] ++
    (if fullR.2 then [lights.Onset.Full rms] else []) ++
    (if drumR.2 then [lights.Onset.Drum rms] else []) ++
    (if hihatR.2 then [lights.Onset.Hihat peak] else []) ++
    (if noteR.2 then [lights.Onset.Note rms (idx % 65536)] else [])
  (onsets,
   { sf with
     old_spectrum := old
     spectrum := spectrum
     threshold :=
       { drum := drumR.1, hihat := hihatR.1, note := noteR.1, full := fullR.1 } })

/-! ### HFC onset detector, from src/utils/audioprocessing/hfc.rs, with
the dynamic threshold from src/utils/audioprocessing/threshold.rs -/

/-- Tagged onset event consumed by hfc.rs (enum Event of the lights
module it imports). -/
inductive Event where
  | Full (strength : ℝ)
  | Atmosphere (strength : ℝ) (index : ℕ)
  | Note (strength : ℝ) (index : ℕ)
  | Drum (strength : ℝ)
  | Hihat (strength : ℝ)
  | Raw (value : ℝ)

/-- Struct DynamicThreshold of threshold.rs: ring of past values plus the
intensity parameters. -/
structure DynamicThreshold where
  past_samples : List ℝ
  buffer_size : ℕ
  min_intensity : ℝ
  delta_intensity : ℝ

/-- DynamicThreshold::init_config (None options resolved as in the
source). -/
def DynamicThreshold.init_config (buffer_size : ℕ) (min_intensity delta_intensity : ℝ) :
    DynamicThreshold :=
  { past_samples := []
    buffer_size := buffer_size
    min_intensity := min_intensity
    delta_intensity := delta_intensity }

/-- The smallest finite f32, the fold seed of the ring maximum in
DynamicThreshold::get_threshold. -/
def f32Min : ℝ :=
  -(2 ^ 128 - 2 ^ 104)

/-- DynamicThreshold::get_threshold: push the value (dropping the oldest
at capacity), normalise the ring by its maximum, square, append
buffer_size - 1 zeros, weight with a Hann window (the precomputed
39-point window when buffer_size is 20), and return
(min_intensity + delta_intensity * sum) * max together with the new
state. -/
def DynamicThreshold.get_threshold (t : DynamicThreshold) (value : ℝ) :
    ℝ × DynamicThreshold :=
  let past :=
    if t.buffer_size ≤ t.past_samples.length then t.past_samples.drop 1 ++ [value]
    else t.past_samples ++ [value]
  let mx := past.foldl (fun a b => Max.max a b) f32Min
  let normalized := past.map (fun s => (s / mx) ^ 2) ++ List.replicate (t.buffer_size - 1) 0
  let wndw := if t.buffer_size = 20 then window 39 .Hann else window normalized.length .Hann
  let weighted := zipWithKeep (fun x w => x * w) normalized wndw
  ((t.min_intensity + t.delta_intensity * weighted.sum) * mx,
   { t with past_samples := past })

/-- Struct ThresholdBank of hfc.rs with its default parameters: four
dynamic thresholds. -/
structure HfcThresholdBank where
  drums : DynamicThreshold
  hihat : DynamicThreshold
  notes : DynamicThreshold
  fullband : DynamicThreshold

/-- Source defaults of the HFC threshold bank. -/
def HfcThresholdBank.standard : HfcThresholdBank :=
  { drums := DynamicThreshold.init_config 30 0.3 0.18
    hihat := DynamicThreshold.init_config 20 0.3 0.18
    notes := DynamicThreshold.init_config 20 0.2 0.15
    fullband := DynamicThreshold.init_config 20 0.2 0.15 }

/-- Struct DetectionWeights of hfc.rs (cutoffs in hertz). -/
structure DetectionWeights where
  low_end_weight_cutoff : ℕ
  high_end_weight_cutoff : ℕ
  mids_weight_low_cutoff : ℕ
  mids_weight_high_cutoff : ℕ
  drum_click_weight : ℝ
  note_click_weight : ℝ

/-- Source defaults of DetectionWeights. -/
def DetectionWeights.standard : DetectionWeights :=
  { low_end_weight_cutoff := 300
    high_end_weight_cutoff := 2000
    mids_weight_low_cutoff := 200
    mids_weight_high_cutoff := 3000
    drum_click_weight := 0.005
    note_click_weight := 0.1 }

/-- Struct Hfc. -/
structure Hfc where
  threshold : HfcThresholdBank
  detection_weights : DetectionWeights
  bin_resolution : ℝ

/-- Hfc::init. -/
def Hfc.init (sample_rate fft_size : ℕ) : Hfc :=
  { threshold := HfcThresholdBank.standard
    detection_weights := DetectionWeights.standard
    bin_resolution := (sample_rate : ℝ) / (fft_size : ℝ) }

/-- High-frequency-content weighting of a bin range: each value times its
(slice-relative) index times the bin resolution, summed. -/
def hfcWeight (bin_res : ℝ) (l : List ℝ) : ℝ :=
  (l.enum.map (fun p => (p.1 : ℝ) * bin_res * p.2)).sum

open Classical in
/-- Hfc::detect: an all-zero spectrum returns no event at all; otherwise
the four HFC band weights are compared against their dynamic thresholds
and the corresponding events are emitted in source order (Full or
Atmosphere, then the diagnostic Raw, then Drum, Note, Hihat). -/
def Hfc.detect (h : Hfc) (freq_bins : List ℝ) (peak rms : ℝ) : List Event × Hfc :=
  if ∀ x ∈ freq_bins, x = 0 then ([], h)
  else
    let w := h.detection_weights
    let lec := ⌊(w.low_end_weight_cutoff : ℝ) / h.bin_resolution⌋₊
    let hec := ⌊(w.high_end_weight_cutoff : ℝ) / h.bin_resolution⌋₊
    let mlc := ⌊(w.mids_weight_low_cutoff : ℝ) / h.bin_resolution⌋₊
    let mhc := ⌊(w.mids_weight_high_cutoff : ℝ) / h.bin_resolution⌋₊
    let weight := hfcWeight h.bin_resolution freq_bins
    let low_end_weight := hfcWeight h.bin_resolution (freq_bins.take lec)
    let high_end_weight := hfcWeight h.bin_resolution (freq_bins.drop hec)
    let mids := (freq_bins.drop mlc).take (mhc - mlc)
    let mids_weight := hfcWeight h.bin_resolution mids
    let index_of_max_mid := ⌊((indexOfMax mids : ℕ) : ℝ) * h.bin_resolution⌋₊
    let index_of_max := ⌊((indexOfMax freq_bins : ℕ) : ℝ) * h.bin_resolution⌋₊
    let fullR := h.threshold.fullband.get_threshold weight
    let drums_weight := low_end_weight * w.drum_click_weight * high_end_weight
    let drumR := h.threshold.drums.get_threshold drums_weight
    let notes_weight := mids_weight + w.note_click_weight * high_end_weight
    let notesR := h.threshold.notes.get_threshold notes_weight
    let hihatR := h.threshold.hihat.get_threshold high_end_weight
    let events :=
      (if fullR.1 ≤ weight then [Event.Full rms]
       else [Event.Atmosphere rms (index_of_max % 65536)]) ++
      [Event.Raw weight] ++
      (if drumR.1 ≤ drums_weight then [Event.Drum rms] else []) ++
      (if notesR.1 ≤ notes_weight then [Event.Note rms (index_of_max_mid % 65536)] else []) ++
      (if hihatR.1 ≤ high_end_weight then [Event.Hihat peak] else [])
    (events,
     { h with threshold :=
        { drums := drumR.2, hihat := hihatR.2, notes := notesR.2, fullband := fullR.2 } })

end

/-! ## Theorems

General helper lemmas first, then one theorem per verified property
(with its witness or counterexample). -/

section ThresholdLemmas

variable {α : Type} [LinearOrderedField α]

/-- The onset boolean returned by is_above is the comparison of the new
last_onset counter with 2. -/
theorem AdvancedThreshold.is_above_snd_eq (t : AdvancedThreshold α) (v : α) :
    (t.is_above v).2 = ((t.is_above v).1.last_onset == 2) := rfl

/-- One is_above call either resets the counter or increments it. -/
theorem AdvancedThreshold.is_above_last_onset (t : AdvancedThreshold α) (v : α) :
    (t.is_above v).1.last_onset = 0 ∨ (t.is_above v).1.last_onset = t.last_onset + 1 := by
  simp only [AdvancedThreshold.is_above]
  split
  · exact Or.inl rfl
  · exact Or.inr rfl

/-- A call on a threshold whose counter is not 1 can never emit. -/
theorem AdvancedThreshold.is_above_false_of_ne_one (t : AdvancedThreshold α) (v : α)
    (h : t.last_onset ≠ 1) : (t.is_above v).2 = false := by
  simp only [AdvancedThreshold.is_above]
  split
  · rfl
  · simpa using fun hc => h (by omega)

/-- The pushed ring after an is_above call, independent of the branch
taken. -/
theorem AdvancedThreshold.is_above_fst_past (t : AdvancedThreshold α) (v : α) :
    (t.is_above v).1.past_samples = pushFrontCapped 12 v t.past_samples := rfl

/-- An is_above call only rewrites the ring and the counter. -/
theorem AdvancedThreshold.is_above_fst_params (t : AdvancedThreshold α) (v : α) :
    (t.is_above v).1.mean_range = t.mean_range ∧
      (t.is_above v).1.max_range = t.max_range ∧
      (t.is_above v).1.dynamic_threshold = t.dynamic_threshold ∧
      (t.is_above v).1.threshold_range = t.threshold_range ∧
      (t.is_above v).1.fixed_threshold = t.fixed_threshold :=
  ⟨rfl, rfl, rfl, rfl, rfl⟩

/-- With a history of nonnegative values, a nonnegative adaptive
coefficient and a value strictly below the fixed threshold, is_above
takes the non-reset branch: the counter is incremented and the call
emits exactly when the incremented counter is 2. -/
theorem AdvancedThreshold.is_above_no_reset (t : AdvancedThreshold α) (v : α)
    (hpast : ∀ x ∈ t.past_samples, 0 ≤ x) (hdyn : 0 ≤ t.dynamic_threshold)
    (hv : v < t.fixed_threshold) :
    (t.is_above v).1.last_onset = t.last_onset + 1 ∧
      (t.is_above v).2 = (t.last_onset + 1 == 2) := by
  have hmean : 0 ≤ (t.past_samples.take t.mean_range).sum / (t.mean_range : α) :=
    div_nonneg (List.sum_nonneg fun x hx => hpast x (List.mem_of_mem_take hx))
      (Nat.cast_nonneg _)
  have hnorm : 0 ≤ (t.past_samples.take t.threshold_range).sum / (t.threshold_range : α) :=
    div_nonneg (List.sum_nonneg fun x hx => hpast x (List.mem_of_mem_take hx))
      (Nat.cast_nonneg _)
  have hcond : ¬((t.past_samples.take t.max_range).foldl (fun a b => Max.max a b) 0 ≤ v ∧
      (t.past_samples.take t.mean_range).sum / (t.mean_range : α) +
        (t.past_samples.take t.threshold_range).sum / (t.threshold_range : α) *
          t.dynamic_threshold + t.fixed_threshold ≤ v) := by
    rintro ⟨-, h2⟩
    have : t.fixed_threshold ≤ v := le_trans (by nlinarith) h2
    exact absurd hv (not_lt.mpr this)
  constructor <;> simp only [AdvancedThreshold.is_above, if_neg hcond]

end ThresholdLemmas

attribute [local semireducible] Rat.add Rat.mul Rat.inv Rat.sub Rat.ofScientific

/-- C3 counterexample: on the synthetic flux sequence of the claim, the
implementation does not produce the expected pattern (false everywhere
except index 4): at this explicit concrete input the run emits true at
index 1 and false at index 4. -/
theorem c3_refractory_scenario_counterexample :
    (AdvancedThreshold.with_settings
        ({ mean_range := 2, max_range := 2, adaptive_threshold := 0, threshold_range := 2,
           fixed_threshold := 1 } : AdvancedSettings ℚ)).run
        [0, 0, 10, 10, 10, 0, 0, 10, 0, 0, 0] ≠
      [false, false, false, false, true, false, false, false, false, false, false] := by
  decide

/-- C3 (amended): feeding the value sequence 0,0,10,10,10,0,0,10,0,0,0
into a fresh advanced threshold with max, mean and threshold range 2,
fixed threshold 1 and dynamic coefficient 0 yields emitted booleans that
are true exactly at indices 1, 5 and 9: a spurious emission at index 1
coming from the zero-initialised last_onset counter, the tentative onset
at index 2 being re-armed at index 3 and therefore emitted at index 5,
and the tentative onset at index 7 emitted at index 9. -/
theorem c3_refractory_scenario :
    (AdvancedThreshold.with_settings
        ({ mean_range := 2, max_range := 2, adaptive_threshold := 0, threshold_range := 2,
           fixed_threshold := 1 } : AdvancedSettings ℚ)).run
        [0, 0, 10, 10, 10, 0, 0, 10, 0, 0, 0] =
      [false, true, false, false, false, true, false, false, false, true, false] := by
  decide

/-- C10 counterexample: the first two inputs -100 and 0 are both strictly
below the default fixed threshold 5 of a freshly constructed advanced
threshold, yet the second call does not emit (the negative first input
drags the adaptive part of the threshold below zero, so the second call
counts as a tentative onset and resets the counter). -/
theorem c10_initial_emission_counterexample :
    ((AdvancedSettings.standard : AdvancedSettings ℚ).fixed_threshold = 5 ∧
        (-100 : ℚ) < 5 ∧ (0 : ℚ) < 5) ∧
      (AdvancedThreshold.with_settings
          (AdvancedSettings.standard : AdvancedSettings ℚ)).run [-100, 0] ≠
        [false, true] := by
  decide

/-- C10 (amended): for every advanced threshold freshly constructed with
a positive fixed threshold and a nonnegative adaptive coefficient, if the
first input is nonnegative and both of the first two inputs are strictly
below the fixed threshold (for example an all-zero input stream), then
is_above returns false on the first call and true on the second call: an
onset is emitted although no input ever crossed the threshold, because
last_onset is initialised to 0 and emission is keyed to last_onset
reaching exactly 2. -/
theorem c10_initial_emission (s : AdvancedSettings ℚ) (v₁ v₂ : ℚ)
    (hfix : 0 < s.fixed_threshold) (hdyn : 0 ≤ s.adaptive_threshold)
    (hv₁ : 0 ≤ v₁) (hv₁f : v₁ < s.fixed_threshold) (hv₂f : v₂ < s.fixed_threshold) :
    (AdvancedThreshold.with_settings s).run [v₁, v₂] = [false, true] := by
  have t0eq : ∀ x ∈ (AdvancedThreshold.with_settings s : AdvancedThreshold ℚ).past_samples,
      (0 : ℚ) ≤ x := by
    simp [AdvancedThreshold.with_settings]
  have h₁ := (AdvancedThreshold.with_settings s).is_above_no_reset v₁ t0eq hdyn hv₁f
  set st₁ := ((AdvancedThreshold.with_settings s : AdvancedThreshold ℚ).is_above v₁).1 with hst₁
  have hpast₁ : st₁.past_samples = v₁ :: List.replicate 8 0 := by
    rw [hst₁, AdvancedThreshold.is_above_fst_past]
    simp [pushFrontCapped, AdvancedThreshold.with_settings]
  have hpos₁ : ∀ x ∈ st₁.past_samples, (0 : ℚ) ≤ x := by
    rw [hpast₁]
    intro x hx
    rcases List.mem_cons.mp hx with h | h
    · exact h ▸ hv₁
    · exact (List.eq_of_mem_replicate h) ▸ le_rfl
  have hdyn₁ : (0 : ℚ) ≤ st₁.dynamic_threshold := by
    rw [hst₁, (AdvancedThreshold.is_above_fst_params _ _).2.2.1]
    exact hdyn
  have hfix₁ : v₂ < st₁.fixed_threshold := by
    rw [hst₁, (AdvancedThreshold.is_above_fst_params _ _).2.2.2.2]
    exact hv₂f
  have h₂ := st₁.is_above_no_reset v₂ hpos₁ hdyn₁ hfix₁
  have hlast₁ : st₁.last_onset = 1 := by
    rw [hst₁, h₁.1]
    rfl
  simp only [AdvancedThreshold.run, ← hst₁, h₁.2, h₂.2, hlast₁]
  rfl

/-- C10 witness: the theorem applied to the default settings and an
all-zero input stream. -/
theorem c10_initial_emission_witness :
    (0 < (AdvancedSettings.standard : AdvancedSettings ℚ).fixed_threshold ∧
        0 ≤ (AdvancedSettings.standard : AdvancedSettings ℚ).adaptive_threshold ∧
        (0 : ℚ) < (AdvancedSettings.standard : AdvancedSettings ℚ).fixed_threshold) ∧
      (AdvancedThreshold.with_settings
        (AdvancedSettings.standard : AdvancedSettings ℚ)).run [0, 0] = [false, true] :=
  ⟨⟨by decide, by decide, by decide⟩,
    c10_initial_emission _ 0 0 (by decide) (by decide) le_rfl (by decide) (by decide)⟩

section RunLemmas

variable {α : Type} [LinearOrderedField α]

/-- The run output has one boolean per input. -/
theorem AdvancedThreshold.run_length (t : AdvancedThreshold α) (l : List α) :
    (t.run l).length = l.length := by
  induction l generalizing t with
  | nil => rfl
  | cons v rest ih => simp [AdvancedThreshold.run, ih]

/-- The n-th emitted boolean compares the counter after n+1 steps
with 2. -/
theorem AdvancedThreshold.run_getD (t : AdvancedThreshold α) (l : List α) (n : ℕ)
    (h : n < l.length) :
    (t.run l).getD n false = ((t.stateAfter l (n + 1)).last_onset == 2) := by
  induction l generalizing t n with
  | nil => simp at h
  | cons v rest ih =>
    cases n with
    | zero =>
      show (t.is_above v).2 = _
      rw [AdvancedThreshold.is_above_snd_eq]
      simp [AdvancedThreshold.stateAfter]
    | succ m =>
      have hm : m < rest.length := by simpa using h
      show ((t.is_above v).1.run rest).getD m false = _
      rw [ih _ m hm]
      simp [AdvancedThreshold.stateAfter]

/-- Unfolding one more consumed input of stateAfter. -/
theorem AdvancedThreshold.stateAfter_succ (t : AdvancedThreshold α) (l : List α) (n : ℕ)
    (h : n < l.length) :
    t.stateAfter l (n + 1) = ((t.stateAfter l n).is_above (l.get ⟨n, h⟩)).1 := by
  unfold AdvancedThreshold.stateAfter
  rw [← List.take_concat_get l n h, List.concat_eq_append, List.foldl_append]
  rfl

end RunLemmas

/-- C4: refractory separation.  For every configuration and every input
sequence fed to a freshly constructed advanced threshold, any two calls
that emit an onset are separated by at least delay + 1 = 3 hops: if both
the i-th and the j-th emitted booleans are true and i < j, then
j - i is at least 3. -/
theorem c4_refractory_separation (s : AdvancedSettings ℚ) (inputs : List ℚ) (i j : ℕ)
    (hij : i < j)
    (hi : ((AdvancedThreshold.with_settings s).run inputs).getD i false = true)
    (hj : ((AdvancedThreshold.with_settings s).run inputs).getD j false = true) :
    i + 3 ≤ j := by
  set t := (AdvancedThreshold.with_settings s : AdvancedThreshold ℚ) with ht
  have hjlen : j < inputs.length := by
    by_contra hc
    rw [List.getD_eq_default _ _ (by rw [AdvancedThreshold.run_length]; omega)] at hj
    exact Bool.false_ne_true hj
  have hilen : i < inputs.length := lt_trans hij hjlen
  have hi2 : (t.stateAfter inputs (i + 1)).last_onset = 2 := by
    have := AdvancedThreshold.run_getD t inputs i hilen
    rw [hi] at this
    exact beq_iff_eq.mp this.symm
  have hj2 : (t.stateAfter inputs (j + 1)).last_onset = 2 := by
    have := AdvancedThreshold.run_getD t inputs j hjlen
    rw [hj] at this
    exact beq_iff_eq.mp this.symm
  by_contra hlt
  have hcase : j = i + 1 ∨ j = i + 2 := by omega
  have step : ∀ n, n < inputs.length →
      (t.stateAfter inputs (n + 1)).last_onset = 0 ∨
        (t.stateAfter inputs (n + 1)).last_onset =
          (t.stateAfter inputs n).last_onset + 1 := by
    intro n hn
    rw [AdvancedThreshold.stateAfter_succ t inputs n hn]
    exact AdvancedThreshold.is_above_last_onset _ _
  rcases hcase with rfl | rfl
  · have := step (i + 1) hjlen
    rw [hj2, hi2] at this
    omega
  · have h1 := step (i + 1) (by omega)
    have h2 := step (i + 2) hjlen
    have e : i + 1 + 1 = i + 2 := rfl
    rw [hi2] at h1
    rw [hj2] at h2
    rw [e] at h1
    omega

/-- C4 witness: on the refractory scenario input, emissions happen at
indices 1 and 5, which are indeed at least three hops apart. -/
theorem c4_refractory_separation_witness :
    ((1 : ℕ) < 5 ∧
      ((AdvancedThreshold.with_settings
          ({ mean_range := 2, max_range := 2, adaptive_threshold := 0, threshold_range := 2,
             fixed_threshold := 1 } : AdvancedSettings ℚ)).run
          [0, 0, 10, 10, 10, 0, 0, 10, 0, 0, 0]).getD 1 false = true ∧
      ((AdvancedThreshold.with_settings
          ({ mean_range := 2, max_range := 2, adaptive_threshold := 0, threshold_range := 2,
             fixed_threshold := 1 } : AdvancedSettings ℚ)).run
          [0, 0, 10, 10, 10, 0, 0, 10, 0, 0, 0]).getD 5 false = true) ∧
      1 + 3 ≤ 5 :=
  ⟨⟨by decide, by decide, by decide⟩,
    c4_refractory_separation
      ({ mean_range := 2, max_range := 2, adaptive_threshold := 0, threshold_range := 2,
         fixed_threshold := 1 } : AdvancedSettings ℚ)
      [0, 0, 10, 10, 10, 0, 0, 10, 0, 0, 0] 1 5 (by decide) (by decide) (by decide)⟩

section ArgmaxLemmas

variable {α : Type} [LinearOrder α]

/-- Specification of the Rust max_by fold: the result is the accumulator
or one of the pairs, it dominates every value seen, its index never
decreases, and every pair strictly after it (by index) is strictly
smaller. -/
theorem maxByFoldSpec (acc : ℕ × α) (ps : List (ℕ × α))
    (hinc : ∀ q ∈ ps, acc.1 < q.1)
    (hp : List.Pairwise (fun p q : ℕ × α => p.1 < q.1) ps) :
    (ps.foldl (fun a q => if a.2 ≤ q.2 then q else a) acc = acc ∨
        ps.foldl (fun a q => if a.2 ≤ q.2 then q else a) acc ∈ ps) ∧
      acc.2 ≤ (ps.foldl (fun a q => if a.2 ≤ q.2 then q else a) acc).2 ∧
      (∀ q ∈ ps, q.2 ≤ (ps.foldl (fun a q => if a.2 ≤ q.2 then q else a) acc).2) ∧
      acc.1 ≤ (ps.foldl (fun a q => if a.2 ≤ q.2 then q else a) acc).1 ∧
      (∀ q ∈ ps, (ps.foldl (fun a q => if a.2 ≤ q.2 then q else a) acc).1 < q.1 →
        q.2 < (ps.foldl (fun a q => if a.2 ≤ q.2 then q else a) acc).2) := by
  induction ps generalizing acc with
  | nil => simp
  | cons q0 rest ih =>
    obtain ⟨hq0rest, hprest⟩ := List.pairwise_cons.mp hp
    by_cases hb : acc.2 ≤ q0.2
    · have hrec := ih q0 (fun q hq => hq0rest q hq) hprest
      obtain ⟨hmem, hle, hall, hfst, hlast⟩ := hrec
      have hfold : (q0 :: rest).foldl (fun a q => if a.2 ≤ q.2 then q else a) acc =
          rest.foldl (fun a q => if a.2 ≤ q.2 then q else a) q0 := by
        simp [if_pos hb]
      rw [hfold]
      refine ⟨?_, le_trans hb hle, ?_, ?_, ?_⟩
      · rcases hmem with h | h
        · exact Or.inr (by rw [h]; exact List.mem_cons_self q0 rest)
        · exact Or.inr (List.mem_cons_of_mem _ h)
      · intro q hq
        rcases List.mem_cons.mp hq with rfl | hq'
        · exact hle
        · exact hall q hq'
      · exact le_of_lt (lt_of_lt_of_le (hinc q0 (List.mem_cons_self q0 rest)) hfst)
      · intro q hq hlt
        rcases List.mem_cons.mp hq with rfl | hq'
        · exact absurd (lt_of_le_of_lt hfst hlt) (lt_irrefl _)
        · exact hlast q hq' hlt
    · have hrec := ih acc (fun q hq => hinc q (List.mem_cons_of_mem _ hq)) hprest
      obtain ⟨hmem, hle, hall, hfst, hlast⟩ := hrec
      have hfold : (q0 :: rest).foldl (fun a q => if a.2 ≤ q.2 then q else a) acc =
          rest.foldl (fun a q => if a.2 ≤ q.2 then q else a) acc := by
        simp [if_neg hb]
      rw [hfold]
      refine ⟨?_, hle, ?_, hfst, ?_⟩
      · rcases hmem with h | h
        · exact Or.inl h
        · exact Or.inr (List.mem_cons_of_mem _ h)
      · intro q hq
        rcases List.mem_cons.mp hq with rfl | hq'
        · exact le_trans (le_of_lt (lt_of_not_le hb)) hle
        · exact hall q hq'
      · intro q hq hlt
        rcases List.mem_cons.mp hq with rfl | hq'
        · exact lt_of_lt_of_le (lt_of_not_le hb) hle
        · exact hlast q hq' hlt

/-- Membership in enumFrom: exactly the pairs (n + i, l.get i). -/
theorem mem_enumFrom_iff' (l : List α) (n : ℕ) (q : ℕ × α) :
    q ∈ List.enumFrom n l ↔ ∃ (i : ℕ) (h : i < l.length), q = (n + i, l.get ⟨i, h⟩) := by
  induction l generalizing n with
  | nil => simp [List.enumFrom]
  | cons x xs ih =>
    simp only [List.enumFrom, List.mem_cons, ih]
    constructor
    · rintro (rfl | ⟨i, h, rfl⟩)
      · exact ⟨0, by simp, by simp⟩
      · exact ⟨i + 1, by simpa using h, by simp [List.get_cons_succ]; omega⟩
    · rintro ⟨i, h, rfl⟩
      cases i with
      | zero => exact Or.inl (by simp)
      | succ m =>
        refine Or.inr ⟨m, by simpa using h, ?_⟩
        simp [List.get_cons_succ]
        omega

/-- The indices of enumFrom are strictly increasing. -/
theorem pairwise_fst_lt_enumFrom (l : List α) (n : ℕ) :
    List.Pairwise (fun p q : ℕ × α => p.1 < q.1) (List.enumFrom n l) := by
  induction l generalizing n with
  | nil => simp [List.enumFrom]
  | cons x xs ih =>
    refine List.Pairwise.cons ?_ (ih (n + 1))
    intro q hq
    obtain ⟨i, h, rfl⟩ := (mem_enumFrom_iff' xs (n + 1) q).mp hq
    omega

end ArgmaxLemmas

/-- C9 counterexample: on the spectrum 5, 5 the argmax used by the
detectors reports index 1, not the smallest index 0. -/
theorem c9_argmax_tiebreak_counterexample :
    indexOfMax [(5 : ℚ), 5] = 1 ∧ indexOfMax [(5 : ℚ), 5] ≠ 0 := by
  decide

/-- C9 (amended): whenever a detector computes the dominant-frequency
index (the max_by argmax over spectrum bins, indexOfMax here), the
returned index is in range, the value there is a maximum, and ties are
broken toward the largest index: every strictly later bin holds a
strictly smaller value. -/
theorem c9_argmax_tiebreak {α : Type} [LinearOrder α] (l : List α) (hne : l ≠ []) :
    ∃ hlt : indexOfMax l < l.length,
      (∀ j (hj : j < l.length), l.get ⟨j, hj⟩ ≤ l.get ⟨indexOfMax l, hlt⟩) ∧
      ∀ j (hj : j < l.length), indexOfMax l < j →
        l.get ⟨j, hj⟩ < l.get ⟨indexOfMax l, hlt⟩ := by
  match l, hne with
  | x :: xs, _ =>
    have hdef : indexOfMax (x :: xs) =
        ((List.enumFrom 1 xs).foldl (fun a q => if a.2 ≤ q.2 then q else a) (0, x)).1 := rfl
    have hspec := maxByFoldSpec (0, x) (List.enumFrom 1 xs)
      (fun q hq => by
        obtain ⟨i, h, rfl⟩ := (mem_enumFrom_iff' xs 1 q).mp hq
        omega)
      (pairwise_fst_lt_enumFrom xs 1)
    set r := (List.enumFrom 1 xs).foldl (fun a q => if a.2 ≤ q.2 then q else a) (0, x)
      with hr
    obtain ⟨hmem, hle, hall, -, hlast⟩ := hspec
    have hopt : (x :: xs)[r.1]? = some r.2 := by
      rcases hmem with h | h
      · rw [h]
        simp
      · obtain ⟨i, hi, heq⟩ := (mem_enumFrom_iff' xs 1 _).mp h
        have e : (1 + i : ℕ) = i + 1 := by omega
        rw [heq]
        simp only [e, List.getElem?_cons_succ]
        simp [List.getElem?_eq_getElem hi, List.get_eq_getElem]
    have hrget : ∃ h : r.1 < (x :: xs).length, r.2 = (x :: xs).get ⟨r.1, h⟩ := by
      obtain ⟨hlt', hval⟩ := List.getElem?_eq_some.mp hopt
      exact ⟨hlt', by simp [List.get_eq_getElem, hval]⟩
    obtain ⟨hrlt, hrval⟩ := hrget
    rw [hdef]
    refine ⟨hrlt, ?_, ?_⟩
    · intro j hj
      cases j with
      | zero =>
        rw [← hrval]
        exact hle
      | succ m =>
        have hmm : m < xs.length := by simpa using hj
        have hmem' : ((1 + m : ℕ), xs.get ⟨m, hmm⟩) ∈ List.enumFrom 1 xs :=
          (mem_enumFrom_iff' xs 1 _).mpr ⟨m, hmm, rfl⟩
        have := hall _ hmem'
        rw [← hrval]
        simpa [List.get_cons_succ] using this
    · intro j hj hjgt
      cases j with
      | zero => omega
      | succ m =>
        have hmm : m < xs.length := by simpa using hj
        have hmem' : ((1 + m : ℕ), xs.get ⟨m, hmm⟩) ∈ List.enumFrom 1 xs :=
          (mem_enumFrom_iff' xs 1 _).mpr ⟨m, hmm, rfl⟩
        have := hlast _ hmem' (by omega)
        rw [← hrval]
        simpa [List.get_cons_succ] using this

/-- C9 witness: the amended theorem applied to the two-element spectrum
5, 5 (the reported index is 1 and dominates). -/
theorem c9_argmax_tiebreak_witness :
    ([(5 : ℚ), 5] ≠ []) ∧
      ∃ hlt : indexOfMax [(5 : ℚ), 5] < ([(5 : ℚ), 5] : List ℚ).length,
        (∀ j (hj : j < ([(5 : ℚ), 5] : List ℚ).length),
          ([(5 : ℚ), 5] : List ℚ).get ⟨j, hj⟩ ≤
            ([(5 : ℚ), 5] : List ℚ).get ⟨indexOfMax [(5 : ℚ), 5], hlt⟩) ∧
        ∀ j (hj : j < ([(5 : ℚ), 5] : List ℚ).length), indexOfMax [(5 : ℚ), 5] < j →
          ([(5 : ℚ), 5] : List ℚ).get ⟨j, hj⟩ <
            ([(5 : ℚ), 5] : List ℚ).get ⟨indexOfMax [(5 : ℚ), 5], hlt⟩ :=
  ⟨by decide, c9_argmax_tiebreak [(5 : ℚ), 5] (by decide)⟩

section AssemblerLemmas

variable {α : Type}

/-- The loop leaves the buffer minus n hops. -/
theorem assembleLoop_snd (B H : ℕ) :
    ∀ (n : ℕ) (buf : List α), (assembleLoop B H n buf).2 = buf.drop (n * H) := by
  intro n
  induction n with
  | zero => intro buf; simp [assembleLoop]
  | succ m ih =>
    intro buf
    show (assembleLoop B H m (buf.drop H)).2 = _
    rw [ih (buf.drop H), List.drop_drop]
    congr 1
    ring

/-- The loop emits exactly n frames. -/
theorem assembleLoop_length (B H : ℕ) :
    ∀ (n : ℕ) (buf : List α), (assembleLoop B H n buf).1.length = n := by
  intro n
  induction n with
  | zero => intro buf; simp [assembleLoop]
  | succ m ih =>
    intro buf
    show ((buf.take B) :: (assembleLoop B H m (buf.drop H)).1).length = _
    rw [List.length_cons, ih]

/-- The k-th frame of the loop is the B-sample window at offset k hops
into the buffer. -/
theorem assembleLoop_getD (B H : ℕ) :
    ∀ (n : ℕ) (buf : List α) (k : ℕ), k < n →
      (assembleLoop B H n buf).1.getD k [] = (buf.drop (k * H)).take B := by
  intro n
  induction n with
  | zero => omega
  | succ m ih =>
    intro buf k hk
    cases k with
    | zero => simp [assembleLoop]
    | succ j =>
      show ((assembleLoop B H m (buf.drop H)).1).getD j [] = _
      rw [ih (buf.drop H) j (by omega), List.drop_drop]
      congr 2
      ring

/-- Arithmetic of one callback: with a pre-existing backlog shorter than
the frame size, appending K samples yields n = (len + K + H - B) / H new
frames, the drained hops fit in the buffer, the leftover is again shorter
than the frame size, frames stay within the appended buffer, and the
total frame count over any continuation splits accordingly. -/
theorem assembleCount (B H len K R : ℕ) (hH : 0 < H) (hHB : H ≤ B) (hlen : len < B) :
    (len + K + H - B) / H * H ≤ len + K ∧
      len + K - (len + K + H - B) / H * H < B ∧
      ((len + K + H - B) / H = 0 ∨ (len + K + H - B) / H * H + B ≤ len + K + H) ∧
      (if B ≤ len + K + R then (len + K + R - B) / H + 1 else 0) =
        (len + K + H - B) / H +
          (if B ≤ len + K - (len + K + H - B) / H * H + R then
            (len + K - (len + K + H - B) / H * H + R - B) / H + 1
          else 0) := by
  set M := len + K with hM
  by_cases hcase : B ≤ M + H
  · have hdm := Nat.div_add_mod (M + H - B) H
    set n := (M + H - B) / H with hn
    set ρ := (M + H - B) % H with hρdef
    have hρ : ρ < H := Nat.mod_lt _ hH
    have hP : n * H = H * n := Nat.mul_comm n H
    have hMeq : M + H = B + (n * H + ρ) := by omega
    have ha : n * H ≤ M := by omega
    have hb : M - n * H < B := by omega
    have hc : n = 0 ∨ n * H + B ≤ M + H := Or.inr (by omega)
    refine ⟨ha, hb, hc, ?_⟩
    have part1 : (if B ≤ M + R then (M + R - B) / H + 1 else 0) = (n * H + (ρ + R)) / H := by
      by_cases h1 : B ≤ M + R
      · rw [if_pos h1, ← Nat.add_div_right (M + R - B) hH]
        congr 1
        omega
      · have hlt : n * H + (ρ + R) < H := by omega
        rw [if_neg h1, Nat.div_eq_of_lt hlt]
    have part2 : (if B ≤ M - n * H + R then (M - n * H + R - B) / H + 1 else 0) =
        (ρ + R) / H := by
      by_cases h2 : B ≤ M - n * H + R
      · rw [if_pos h2, ← Nat.add_div_right (M - n * H + R - B) hH]
        congr 1
        omega
      · have hlt : ρ + R < H := by omega
        rw [if_neg h2, Nat.div_eq_of_lt hlt]
    rw [part1, part2, hP, Nat.mul_add_div hH]
  · have hn0 : (M + H - B) / H = 0 := by
      have : M + H - B = 0 := by omega
      rw [this, Nat.zero_div]
    rw [hn0]
    refine ⟨by omega, by omega, Or.inl rfl, ?_⟩
    simp

/-- Dropping and taking inside the left part of an append. -/
theorem drop_take_append (X F : List α) (m B : ℕ) (h : m + B ≤ X.length) :
    ((X ++ F).drop m).take B = (X.drop m).take B := by
  rw [List.drop_append_eq_append_drop, Nat.sub_eq_zero_of_le (by omega), List.drop_zero,
    List.take_append_eq_append_take, Nat.sub_eq_zero_of_le (by rw [List.length_drop]; omega),
    List.take_zero, List.append_nil]

/-- Core invariant of the frame assembler: starting from a backlog
shorter than one frame, the total number of frames produced over any
chunk list is given by the frame-count formula on the concatenated
stream, and the k-th frame is the frame-size window at offset k hops
into the concatenated stream. -/
theorem runChunks_spec (B H : ℕ) (hH : 0 < H) (hHB : H ≤ B) :
    ∀ (chunks : List (List α)) (s : List α), s.length < B →
      (runChunks B H s chunks).length =
        (if B ≤ (s ++ chunks.flatten).length then
          ((s ++ chunks.flatten).length - B) / H + 1
        else 0) ∧
      ∀ k, k < (runChunks B H s chunks).length →
        (runChunks B H s chunks).getD k [] =
          ((s ++ chunks.flatten).drop (k * H)).take B := by
  intro chunks
  induction chunks with
  | nil =>
    intro s hs
    constructor
    · rw [if_neg (by simpa using Nat.not_le_of_lt hs)]
      rfl
    · intro k hk
      simp [runChunks] at hk
  | cons c rest ih =>
    intro s hs
    have hunfold : runChunks B H s (c :: rest) =
        (assembleLoop B H (((s ++ c).length + H - B) / H) (s ++ c)).1 ++
          runChunks B H ((s ++ c).drop ((((s ++ c).length + H - B) / H) * H)) rest := by
      have ute : runChunks B H s (c :: rest) =
          (processChunk B H s c).1 ++ runChunks B H (processChunk B H s c).2 rest := rfl
      rw [ute]
      show (assembleLoop B H (((s ++ c).length + H - B) / H) (s ++ c)).1 ++
          runChunks B H (assembleLoop B H (((s ++ c).length + H - B) / H) (s ++ c)).2 rest = _
      rw [assembleLoop_snd]
    have hlen : (s ++ c).length = s.length + c.length := List.length_append s c
    obtain ⟨ha, hb, hc, hcount⟩ :=
      assembleCount B H s.length c.length rest.flatten.length hH hHB hs
    set n := ((s.length + c.length) + H - B) / H with hndef
    have hn' : ((s ++ c).length + H - B) / H = n := by rw [hlen]
    have hs2 : ((s ++ c).drop (n * H)).length < B := by
      rw [List.length_drop, hlen]
      exact hb
    obtain ⟨ihlen, ihget⟩ := ih ((s ++ c).drop (n * H)) hs2
    have hflat : s ++ (c :: rest).flatten = (s ++ c) ++ rest.flatten := by
      rw [List.flatten_cons, List.append_assoc]
    have hdropped : ((s ++ c) ++ rest.flatten).drop (n * H) =
        (s ++ c).drop (n * H) ++ rest.flatten := by
      rw [List.drop_append_eq_append_drop, Nat.sub_eq_zero_of_le (by rw [hlen]; exact ha),
        List.drop_zero]
    have hlen2 : ((s ++ c).drop (n * H) ++ rest.flatten).length =
        s.length + c.length - n * H + rest.flatten.length := by
      rw [List.length_append, List.length_drop, hlen]
    constructor
    · rw [hunfold, List.length_append, assembleLoop_length, hn', ihlen, hlen2, hflat,
        List.length_append, hlen]
      rw [hcount]
    · intro k hk
      rw [hunfold] at hk ⊢
      rw [List.length_append, assembleLoop_length, hn'] at hk
      rw [hflat]
      by_cases hkn : k < n
      · rw [List.getD_append _ _ _ _ (by rw [assembleLoop_length, hn']; exact hkn)]
        rw [hn', assembleLoop_getD B H n (s ++ c) k hkn]
        have hkB : k * H + B ≤ (s ++ c).length := by
          rcases hc with h0 | hle
          · omega
          · have hk1 : (k + 1) * H ≤ n * H := Nat.mul_le_mul_right H (by omega)
            have hkH : k * H + H = (k + 1) * H := by ring
            rw [hlen]
            omega
        rw [drop_take_append (s ++ c) rest.flatten (k * H) B hkB]
      · rw [List.getD_append_right _ _ _ _ (by rw [assembleLoop_length, hn']; omega)]
        rw [assembleLoop_length, hn']
        have hjk : k - n < (runChunks B H ((s ++ c).drop (n * H)) rest).length := by omega
        rw [ihget (k - n) hjk, ← hdropped, List.drop_drop]
        congr 2
        have hnk : n + (k - n) = k := by omega
        calc n * H + (k - n) * H = (n + (k - n)) * H := by ring
          _ = k * H := by rw [hnk]

end AssemblerLemmas

/-- C1: frame assembly.  For every chunking of a capture stream of T
per-channel samples (T * C interleaved values) with buffer_size at least
hop_size, the assembler hands downstream exactly
(T - buffer_size) / hop_size + 1 frames when T is at least buffer_size
and none otherwise, each frame is the buffer_size * C interleaved values
starting at per-channel sample k * hop_size (interleaved offset
k * hop_size * C), so no frame is skipped or duplicated and the result is
independent of the chunk boundaries. -/
theorem c1_frame_assembly {α : Type} (C bufferSize hopSize T : ℕ) (chunks : List (List α))
    (hC : 1 ≤ C) (hhop : 1 ≤ hopSize) (hbuf : hopSize ≤ bufferSize)
    (hT : chunks.flatten.length = T * C) :
    (runChunks (bufferSize * C) (hopSize * C) [] chunks).length =
      (if bufferSize ≤ T then (T - bufferSize) / hopSize + 1 else 0) ∧
    ∀ k, k < (runChunks (bufferSize * C) (hopSize * C) [] chunks).length →
      (runChunks (bufferSize * C) (hopSize * C) [] chunks).getD k [] =
        (chunks.flatten.drop (k * (hopSize * C))).take (bufferSize * C) ∧
      ((runChunks (bufferSize * C) (hopSize * C) [] chunks).getD k []).length =
        bufferSize * C := by
  have hH : 0 < hopSize * C := Nat.mul_pos hhop hC
  have hHB : hopSize * C ≤ bufferSize * C := Nat.mul_le_mul_right C hbuf
  have hB : ([] : List α).length < bufferSize * C := by
    simp only [List.length_nil]
    exact Nat.mul_pos (lt_of_lt_of_le hhop hbuf) hC
  obtain ⟨hlen, hget⟩ := runChunks_spec (bufferSize * C) (hopSize * C) hH hHB chunks [] hB
  rw [List.nil_append] at hlen hget
  have hiff : bufferSize * C ≤ chunks.flatten.length ↔ bufferSize ≤ T := by
    rw [hT]
    exact ⟨fun h => Nat.le_of_mul_le_mul_right h (by omega),
      fun h => Nat.mul_le_mul_right C h⟩
  have hdiv : (chunks.flatten.length - bufferSize * C) / (hopSize * C) =
      (T - bufferSize) / hopSize := by
    rw [hT, ← Nat.sub_mul, Nat.mul_div_mul_right _ _ (by omega : 0 < C)]
  have hcnt : (runChunks (bufferSize * C) (hopSize * C) [] chunks).length =
      (if bufferSize ≤ T then (T - bufferSize) / hopSize + 1 else 0) := by
    rw [hlen]
    by_cases hcase : bufferSize ≤ T
    · rw [if_pos (hiff.mpr hcase), if_pos hcase, hdiv]
    · rw [if_neg (fun h => hcase (hiff.mp h)), if_neg hcase]
  refine ⟨hcnt, fun k hk => ⟨hget k hk, ?_⟩⟩
  rw [hget k hk, List.length_take, List.length_drop]
  have hbT : bufferSize ≤ T := by
    by_contra hcon
    rw [hcnt, if_neg hcon] at hk
    omega
  have hkle : k ≤ (T - bufferSize) / hopSize := by
    rw [hcnt, if_pos hbT] at hk
    omega
  have hkh : k * hopSize ≤ T - bufferSize :=
    le_trans (Nat.mul_le_mul_right hopSize hkle) (Nat.div_mul_le_self _ _)
  have : k * (hopSize * C) + bufferSize * C ≤ T * C := by
    calc k * (hopSize * C) + bufferSize * C = (k * hopSize + bufferSize) * C := by ring
      _ ≤ T * C := Nat.mul_le_mul_right C (by omega)
  rw [hT]
  omega

/-- C1 witness: a stereo stream of 4 per-channel samples delivered in
three unevenly sized chunks through a 2-sample buffer with 1-sample hop
(3 frames). -/
theorem c1_frame_assembly_witness :
    ((1 : ℕ) ≤ 2 ∧ (1 : ℕ) ≤ 1 ∧ (1 : ℕ) ≤ 2 ∧
      ([[ (1 : ℤ), 2, 3], [4, 5, 6, 7], [8]].flatten).length = 4 * 2) ∧
      ((runChunks (2 * 2) (1 * 2) [] [[(1 : ℤ), 2, 3], [4, 5, 6, 7], [8]]).length =
        (if 2 ≤ 4 then (4 - 2) / 1 + 1 else 0) ∧
      ∀ k, k < (runChunks (2 * 2) (1 * 2) [] [[(1 : ℤ), 2, 3], [4, 5, 6, 7], [8]]).length →
        (runChunks (2 * 2) (1 * 2) [] [[(1 : ℤ), 2, 3], [4, 5, 6, 7], [8]]).getD k [] =
          (([[(1 : ℤ), 2, 3], [4, 5, 6, 7], [8]].flatten).drop (k * (1 * 2))).take (2 * 2) ∧
        ((runChunks (2 * 2) (1 * 2) [] [[(1 : ℤ), 2, 3], [4, 5, 6, 7], [8]]).getD k []).length =
          2 * 2) :=
  ⟨⟨by decide, by decide, by decide, by decide⟩,
    c1_frame_assembly 2 2 1 4 [[(1 : ℤ), 2, 3], [4, 5, 6, 7], [8]]
      (by decide) (by decide) (by decide) (by decide)⟩

/-- C7: bridge envelope triggering.  For every onset delivered to the
bridge sink, the corresponding envelope (Full to the fullband colour
envelope, Kick to the drum envelope, Hihat to the hihat envelope, Snare
to the note envelope) is triggered exactly when the onset strength
strictly exceeds that envelope's current value, and in every other case
(weaker strength, or the kinds Note, Atmosphere and Raw) the whole sink
state is left unchanged. -/
theorem c7_bridge_envelope_trigger (st : hue.State) (now : ℕ) (o : Onset) :
    (∀ v, o = Onset.Full v →
      (st.fullband.envelope.get_value now < v →
        st.process_onset now o = { st with fullband := st.fullband.trigger now v }) ∧
      (¬ st.fullband.envelope.get_value now < v → st.process_onset now o = st)) ∧
    (∀ v, o = Onset.Kick v →
      (st.drum.get_value now < v →
        st.process_onset now o = { st with drum := st.drum.trigger now v }) ∧
      (¬ st.drum.get_value now < v → st.process_onset now o = st)) ∧
    (∀ v, o = Onset.Hihat v →
      (st.hihat.get_value now < v →
        st.process_onset now o = { st with hihat := st.hihat.trigger now v }) ∧
      (¬ st.hihat.get_value now < v → st.process_onset now o = st)) ∧
    (∀ v, o = Onset.Snare v →
      (st.note.get_value now < v →
        st.process_onset now o = { st with note := st.note.trigger now v }) ∧
      (¬ st.note.get_value now < v → st.process_onset now o = st)) ∧
    ((∀ v, o ≠ Onset.Full v ∧ o ≠ Onset.Kick v ∧ o ≠ Onset.Hihat v ∧ o ≠ Onset.Snare v) →
      st.process_onset now o = st) := by
  cases o with
  | Full w =>
    refine ⟨fun v hv => ?_, fun v hv => Onset.noConfusion hv, fun v hv => Onset.noConfusion hv,
      fun v hv => Onset.noConfusion hv, fun h => absurd rfl (h w).1⟩
    injection hv with h
    subst h
    exact ⟨fun hlt => by simp only [hue.State.process_onset, if_pos hlt],
      fun hnlt => by simp only [hue.State.process_onset, if_neg hnlt]⟩
  | Kick w =>
    refine ⟨fun v hv => Onset.noConfusion hv, fun v hv => ?_, fun v hv => Onset.noConfusion hv,
      fun v hv => Onset.noConfusion hv, fun h => absurd rfl (h w).2.1⟩
    injection hv with h
    subst h
    exact ⟨fun hlt => by simp only [hue.State.process_onset, if_pos hlt],
      fun hnlt => by simp only [hue.State.process_onset, if_neg hnlt]⟩
  | Hihat w =>
    refine ⟨fun v hv => Onset.noConfusion hv, fun v hv => Onset.noConfusion hv,
      fun v hv => ?_, fun v hv => Onset.noConfusion hv, fun h => absurd rfl (h w).2.2.1⟩
    injection hv with h
    subst h
    exact ⟨fun hlt => by simp only [hue.State.process_onset, if_pos hlt],
      fun hnlt => by simp only [hue.State.process_onset, if_neg hnlt]⟩
  | Snare w =>
    refine ⟨fun v hv => Onset.noConfusion hv, fun v hv => Onset.noConfusion hv,
      fun v hv => Onset.noConfusion hv, fun v hv => ?_, fun h => absurd rfl (h w).2.2.2⟩
    injection hv with h
    subst h
    exact ⟨fun hlt => by simp only [hue.State.process_onset, if_pos hlt],
      fun hnlt => by simp only [hue.State.process_onset, if_neg hnlt]⟩
  | Note w i =>
    exact ⟨fun v hv => Onset.noConfusion hv, fun v hv => Onset.noConfusion hv,
      fun v hv => Onset.noConfusion hv, fun v hv => Onset.noConfusion hv, fun _ => rfl⟩
  | Atmosphere w i =>
    exact ⟨fun v hv => Onset.noConfusion hv, fun v hv => Onset.noConfusion hv,
      fun v hv => Onset.noConfusion hv, fun v hv => Onset.noConfusion hv, fun _ => rfl⟩
  | Raw w =>
    exact ⟨fun v hv => Onset.noConfusion hv, fun v hv => Onset.noConfusion hv,
      fun v hv => Onset.noConfusion hv, fun v hv => Onset.noConfusion hv, fun _ => rfl⟩

/-- C7 witness: a Kick onset of strength 1 on a freshly initialised sink
state (current drum value 0) triggers the drum envelope. -/
theorem c7_bridge_envelope_trigger_witness :
    (hue.State.with_settings ⟨[65], [⟨7⟩]⟩ hue.LightSettings.standard 0).process_onset 3
        (Onset.Kick 1) =
      { hue.State.with_settings ⟨[65], [⟨7⟩]⟩ hue.LightSettings.standard 0 with
        drum := ((hue.State.with_settings ⟨[65], [⟨7⟩]⟩
          hue.LightSettings.standard 0).drum.trigger 3 1) } :=
  (((c7_bridge_envelope_trigger
    (hue.State.with_settings ⟨[65], [⟨7⟩]⟩ hue.LightSettings.standard 0) 3
    (Onset.Kick 1)).2.1 1 rfl).1 (by decide))

/-- C6: bridge wire protocol.  In every non-colour-envelope
configuration, the datagram returned by poll is byte-exact: the nine
ASCII bytes of "HueStream", the seven bytes 02 00 00 00 00 00 00, the
entertainment-area id bytes, then for each channel of the area in order
one channel-id byte and big-endian 16-bit R, G, B with r the drum
envelope scaled to 16 bits, white the hihat envelope scaled to 16 bits
shifted right by 3, b the note envelope scaled to 16 bits shifted right
by 1, and R = r + white, G = white, B = b + white with saturating 16-bit
addition. -/
theorem c6_bridge_datagram (area : hue.EntertainmentArea) (settings : hue.LightSettings)
    (hcfg : settings.color_envelope = false)
    (d : DynamicDecayEnvelope) (hh nn : FixedDecayEnvelope) (fb : ColorEnvelope)
    (t0 now : ℕ) :
    ({ hue.State.with_settings area settings t0 with
        drum := d, hihat := hh, note := nn, fullband := fb } : hue.State).poll now =
      [72, 117, 101, 83, 116, 114, 101, 97, 109] ++ [2, 0, 0, 0, 0, 0, 0] ++ area.id ++
        (area.channels.map (fun ch =>
          [ch.channel_id] ++
            be16 (satAdd16 (asU16 (d.get_value now * 65535))
              (asU16 (hh.get_value now * 65535) / 2 ^ 3)) ++
            be16 (asU16 (hh.get_value now * 65535) / 2 ^ 3) ++
            be16 (satAdd16 (asU16 (nn.get_value now * 65535) / 2 ^ 1)
              (asU16 (hh.get_value now * 65535) / 2 ^ 3)))).flatten := by
  simp only [hue.State.poll, hue.State.with_settings, hue.hueStreamMagic, hcfg,
    Bool.false_eq_true, if_false, List.map_map]
  rfl

/-- C6 witness: the theorem applied to a one-channel area with the
default settings (whose colour-envelope flag is off) and concrete
envelope states. -/
theorem c6_bridge_datagram_witness :
    hue.LightSettings.standard.color_envelope = false ∧
      ({ hue.State.with_settings ⟨[65], [⟨7⟩]⟩ hue.LightSettings.standard 0 with
          drum := ⟨0, 8, 1⟩, hihat := ⟨0, 80, 1⟩, note := ⟨0, 100, 1⟩,
          fullband := ColorEnvelope.init (65535, 0, 0) (2, 0, 1) 250 0 } : hue.State).poll 40 =
        [72, 117, 101, 83, 116, 114, 101, 97, 109] ++ [2, 0, 0, 0, 0, 0, 0] ++
          (⟨[65], [⟨7⟩]⟩ : hue.EntertainmentArea).id ++
          ((⟨[65], [⟨7⟩]⟩ : hue.EntertainmentArea).channels.map (fun ch =>
            [ch.channel_id] ++
              be16 (satAdd16 (asU16 ((⟨0, 8, 1⟩ : DynamicDecayEnvelope).get_value 40 * 65535))
                (asU16 ((⟨0, 80, 1⟩ : FixedDecayEnvelope).get_value 40 * 65535) / 2 ^ 3)) ++
              be16 (asU16 ((⟨0, 80, 1⟩ : FixedDecayEnvelope).get_value 40 * 65535) / 2 ^ 3) ++
              be16 (satAdd16
                (asU16 ((⟨0, 100, 1⟩ : FixedDecayEnvelope).get_value 40 * 65535) / 2 ^ 1)
                (asU16 ((⟨0, 80, 1⟩ : FixedDecayEnvelope).get_value 40 * 65535) / 2 ^ 3)))).flatten :=
  ⟨rfl, c6_bridge_datagram ⟨[65], [⟨7⟩]⟩ hue.LightSettings.standard rfl
    ⟨0, 8, 1⟩ ⟨0, 80, 1⟩ ⟨0, 100, 1⟩ (ColorEnvelope.init (65535, 0, 0) (2, 0, 1) 250 0) 0 40⟩

/-- A reversed copy concatenated with the original is mirror-symmetric
around the midpoint. -/
theorem mirror_getD {β : Type} (l : List β) (d : β) (i : ℕ) (h : i < 2 * l.length) :
    (l.reverse ++ l).getD i d = (l.reverse ++ l).getD (2 * l.length - 1 - i) d := by
  have hlen : (l.reverse ++ l).length = 2 * l.length := by
    rw [List.length_append, List.length_reverse]
    omega
  by_cases hi : i < l.length
  · have hj : l.length ≤ 2 * l.length - 1 - i := by omega
    rw [List.getD_append _ _ _ _ (by rw [List.length_reverse]; exact hi)]
    rw [List.getD_append_right _ _ _ _ (by rw [List.length_reverse]; exact hj)]
    rw [List.getD_eq_getElem?_getD, List.getD_eq_getElem?_getD]
    rw [List.getElem?_reverse hi, List.length_reverse]
    congr 2
    omega
  · have hj : 2 * l.length - 1 - i < l.length := by omega
    rw [List.getD_append_right _ _ _ _ (by rw [List.length_reverse]; omega)]
    rw [List.getD_append _ _ _ _ (by rw [List.length_reverse]; exact hj)]
    rw [List.getD_eq_getElem?_getD, List.getD_eq_getElem?_getD]
    rw [List.getElem?_reverse hj, List.length_reverse]
    congr 2
    omega

/-- C8 counterexample: an onset LED sink over an odd strip of 3 RGB LEDs
produces a datagram of 8 bytes (two pixels), not the 2 + 3 * 3 = 11 bytes
that one payload per LED would give. -/
theorem c8_onset_datagram_counterexample :
    ((wled.OnsetState.init 3 false 1 2 0).poll 0).length = 8 ∧
      ((wled.OnsetState.init 3 false 1 2 0).poll 0).length ≠ 2 + 3 * 3 := by
  decide

/-- C8 (amended): for every LED count and every envelope state, the onset
LED sink's datagram is a 1-byte mode (0x02 for RGB, 0x03 for RGBW)
followed by a 1-byte timeout and then exactly 2 * (led_count / 2) per-LED
RGB(W) payloads (the full LED count when it is even, one fewer when it is
odd), arranged as a symmetrical mirror around the strip centre. -/
theorem c8_onset_datagram (st : wled.OnsetState) (timeout now : ℕ)
    (hpre : st.preamble = if st.rgbw then [3, timeout] else [2, timeout]) :
    ∃ pixels : List (List ℕ),
      st.poll now = (if st.rgbw then [3, timeout] else [2, timeout]) ++ pixels.flatten ∧
      pixels.length = 2 * (st.led_count / 2) ∧
      (∀ p ∈ pixels, p.length = if st.rgbw then 4 else 3) ∧
      ∀ i, i < pixels.length → pixels.getD i [] = pixels.getD (pixels.length - 1 - i) [] := by
  refine ⟨((List.range (st.led_count / 2)).map
      (wled.onsetPixel st (st.drum_envelope.get_value now * st.led_count * (5 / 10))
        (st.note_envelope.get_value now * st.led_count * (5 / 10))
        (st.hihat_envelope.get_value now * st.led_count * (2 / 10)))).reverse ++
    ((List.range (st.led_count / 2)).map
      (wled.onsetPixel st (st.drum_envelope.get_value now * st.led_count * (5 / 10))
        (st.note_envelope.get_value now * st.led_count * (5 / 10))
        (st.hihat_envelope.get_value now * st.led_count * (2 / 10)))), ?_, ?_, ?_, ?_⟩
  · rw [← hpre]
    rfl
  · rw [List.length_append, List.length_reverse, List.length_map, List.length_range]
    omega
  · intro p hp
    have hp' : p ∈ (List.range (st.led_count / 2)).map
        (wled.onsetPixel st (st.drum_envelope.get_value now * st.led_count * (5 / 10))
          (st.note_envelope.get_value now * st.led_count * (5 / 10))
          (st.hihat_envelope.get_value now * st.led_count * (2 / 10))) := by
      rcases List.mem_append.mp hp with h | h
      · exact List.mem_reverse.mp h
      · exact h
    obtain ⟨i, -, rfl⟩ := List.mem_map.mp hp'
    by_cases hr : st.rgbw
    · simp [wled.onsetPixel, hr]
    · simp [wled.onsetPixel, hr]
  · intro i hi
    have hlen : ((List.range (st.led_count / 2)).map
        (wled.onsetPixel st (st.drum_envelope.get_value now * st.led_count * (5 / 10))
          (st.note_envelope.get_value now * st.led_count * (5 / 10))
          (st.hihat_envelope.get_value now * st.led_count * (2 / 10)))).length =
        st.led_count / 2 := by
      rw [List.length_map, List.length_range]
    have h2 : (((List.range (st.led_count / 2)).map
        (wled.onsetPixel st (st.drum_envelope.get_value now * st.led_count * (5 / 10))
          (st.note_envelope.get_value now * st.led_count * (5 / 10))
          (st.hihat_envelope.get_value now * st.led_count * (2 / 10)))).reverse ++
        (List.range (st.led_count / 2)).map
        (wled.onsetPixel st (st.drum_envelope.get_value now * st.led_count * (5 / 10))
          (st.note_envelope.get_value now * st.led_count * (5 / 10))
          (st.hihat_envelope.get_value now * st.led_count * (2 / 10)))).length =
        2 * (st.led_count / 2) := by
      rw [List.length_append, List.length_reverse, hlen]
      omega
    rw [h2] at hi
    rw [h2]
    exact mirror_getD _ [] i (by rw [hlen]; exact hi) |>.trans (by rw [hlen])

/-- C8 witness: the amended theorem applied to a fresh 4-LED RGB sink. -/
theorem c8_onset_datagram_witness :
    ((wled.OnsetState.init 4 false 1 2 0).preamble =
        if (wled.OnsetState.init 4 false 1 2 0).rgbw then [3, 2] else [2, 2]) ∧
      ∃ pixels : List (List ℕ),
        (wled.OnsetState.init 4 false 1 2 0).poll 0 =
          (if (wled.OnsetState.init 4 false 1 2 0).rgbw then [3, 2] else [2, 2]) ++
            pixels.flatten ∧
        pixels.length = 2 * ((wled.OnsetState.init 4 false 1 2 0).led_count / 2) ∧
        (∀ p ∈ pixels, p.length = if (wled.OnsetState.init 4 false 1 2 0).rgbw then 4 else 3) ∧
        ∀ i, i < pixels.length →
          pixels.getD i [] = pixels.getD (pixels.length - 1 - i) [] :=
  ⟨by decide, c8_onset_datagram (wled.OnsetState.init 4 false 1 2 0) 2 0 (by decide)⟩

section BufferLemmas

/-- An all-zero frame resets the whole buffer. -/
theorem Buffer.process_raw_zero (channels : ℕ) (s : ProcessingSettings) (data : List ℝ)
    (h : ∀ x ∈ data, x = 0) :
    Buffer.process_raw channels s data = Buffer.zeros channels s := by
  unfold Buffer.process_raw
  rw [if_pos h]

/-- Unfolding of process_raw on a frame with at least one nonzero
sample. -/
theorem Buffer.process_raw_nonzero (channels : ℕ) (s : ProcessingSettings) (data : List ℝ)
    (h : ¬ ∀ x ∈ data, x = 0) :
    Buffer.process_raw channels s data =
      { f32_samples := (Buffer.fftStage channels s (Buffer.split_channels channels data)).1
        mono_samples :=
          Buffer.collapse_mono channels s.buffer_size (Buffer.split_channels channels data)
        freq_bins := (Buffer.fftStage channels s (Buffer.split_channels channels data)).2
        peak := Buffer.peak (Buffer.split_channels channels data)
        rms := Buffer.rms channels (Buffer.split_channels channels data) } := by
  unfold Buffer.process_raw
  rw [if_neg h]

/-- Folding squares into an accumulator is the accumulator plus the sum
of squares. -/
theorem foldl_add_sq (ch : List ℝ) :
    ∀ a : ℝ, ch.foldl (fun acc e => acc + e * e) a = a + (ch.map (fun e => e * e)).sum := by
  induction ch with
  | nil => intro a; simp
  | cons x xs ih =>
    intro a
    rw [List.foldl_cons, ih (a + x * x), List.map_cons, List.sum_cons]
    ring

/-- The running absolute maximum dominates its seed. -/
theorem foldl_peak_ge_init (ch : List ℝ) :
    ∀ a : ℝ, a ≤ ch.foldl (fun mx f => if mx < |f| then |f| else mx) a := by
  induction ch with
  | nil => intro a; simp
  | cons x xs ih =>
    intro a
    refine le_trans ?_ (ih _)
    dsimp only
    by_cases hb : a < |x|
    · rw [if_pos hb]; exact le_of_lt hb
    · rw [if_neg hb]

/-- The running absolute maximum dominates every element. -/
theorem foldl_peak_ge_mem (ch : List ℝ) :
    ∀ (a : ℝ) (x : ℝ), x ∈ ch → |x| ≤ ch.foldl (fun mx f => if mx < |f| then |f| else mx) a := by
  induction ch with
  | nil => intro a x hx; simp at hx
  | cons y ys ih =>
    intro a x hx
    rcases List.mem_cons.mp hx with rfl | hx'
    · refine le_trans ?_ (foldl_peak_ge_init ys _)
      dsimp only
      by_cases hb : a < |x|
      · rw [if_pos hb]
      · rw [if_neg hb]; exact le_of_not_lt hb
    · exact ih _ x hx'

/-- A channel's peak fold is nonnegative. -/
theorem channelPeak_nonneg (ch : List ℝ) : 0 ≤ Buffer.channelPeak ch :=
  foldl_peak_ge_init ch 0

/-- A channel's peak fold dominates every absolute value. -/
theorem abs_le_channelPeak (ch : List ℝ) (x : ℝ) (hx : x ∈ ch) : |x| ≤ Buffer.channelPeak ch :=
  foldl_peak_ge_mem ch 0 x hx

/-- A fold of max dominates its seed. -/
theorem foldl_max_ge_init (l : List ℝ) :
    ∀ a : ℝ, a ≤ l.foldl (fun x y => Max.max x y) a := by
  induction l with
  | nil => intro a; simp
  | cons y ys ih => intro a; exact le_trans (le_max_left a y) (ih _)

/-- A fold of max dominates every element. -/
theorem foldl_max_ge_mem (l : List ℝ) :
    ∀ (a x : ℝ), x ∈ l → x ≤ l.foldl (fun x y => Max.max x y) a := by
  induction l with
  | nil => intro a x hx; simp at hx
  | cons y ys ih =>
    intro a x hx
    rcases List.mem_cons.mp hx with rfl | hx'
    · exact le_trans (le_max_right a x) (foldl_max_ge_init ys _)
    · exact ih _ x hx'

/-- The reduced maximum dominates every element. -/
theorem le_reduceMax (l : List ℝ) (x : ℝ) (hx : x ∈ l) : x ≤ Buffer.reduceMax l := by
  cases l with
  | nil => simp at hx
  | cons y ys =>
    rcases List.mem_cons.mp hx with rfl | hx'
    · exact foldl_max_ge_init ys x
    · exact foldl_max_ge_mem ys y x hx'

/-- The rms of one channel is bounded by any bound on its absolute
values. -/
theorem channelRms_le (ch : List ℝ) (p : ℝ) (hp : 0 ≤ p) (h : ∀ x ∈ ch, |x| ≤ p) :
    Buffer.channelRms ch ≤ p := by
  unfold Buffer.channelRms
  rw [foldl_add_sq, zero_add]
  have hsq : ∀ y ∈ ch.map (fun e => e * e), y ≤ p ^ 2 := by
    intro y hy
    obtain ⟨e, he, rfl⟩ := List.mem_map.mp hy
    have := h e he
    calc e * e = |e| * |e| := (abs_mul_abs_self e).symm
      _ ≤ p * p := mul_le_mul this this (abs_nonneg e) hp
      _ = p ^ 2 := (sq p).symm
  have hsum : (ch.map (fun e => e * e)).sum ≤ (ch.length : ℝ) * p ^ 2 := by
    have := List.sum_le_card_nsmul (ch.map (fun e => e * e)) (p ^ 2) hsq
    rwa [List.length_map, nsmul_eq_mul] at this
  rcases Nat.eq_zero_or_pos ch.length with hlen | hlen
  · rw [List.length_eq_zero.mp hlen]
    simpa using hp
  · have hdiv : (ch.map (fun e => e * e)).sum / (ch.length : ℝ) ≤ p ^ 2 := by
      rw [div_le_iff (by exact_mod_cast hlen)]
      calc (ch.map (fun e => e * e)).sum ≤ (ch.length : ℝ) * p ^ 2 := hsum
        _ = p ^ 2 * ch.length := by ring
    calc Real.sqrt ((ch.map (fun e => e * e)).sum / (ch.length : ℝ)) ≤
          Real.sqrt (p ^ 2) := Real.sqrt_le_sqrt hdiv
      _ = p := by rw [Real.sqrt_sq hp]

/-- The split has one entry per channel. -/
theorem split_channels_length (channels : ℕ) (data : List ℝ) :
    (Buffer.split_channels channels data).length = channels := by
  unfold Buffer.split_channels
  rw [List.length_map, List.length_range]

/-- The buffer peak is nonnegative whenever there is a channel. -/
theorem buffer_peak_nonneg (chans : List (List ℝ)) (hne : chans ≠ []) :
    0 ≤ Buffer.peak chans := by
  obtain ⟨c, cs, rfl⟩ := List.exists_cons_of_ne_nil hne
  exact le_trans (channelPeak_nonneg c)
    (le_reduceMax _ _ (List.mem_map.mpr ⟨c, List.mem_cons_self c cs, rfl⟩))

/-- Every per-channel rms is bounded by the buffer peak. -/
theorem channelRms_le_peak (chans : List (List ℝ)) (hne : chans ≠ []) (ch : List ℝ)
    (hch : ch ∈ chans) : Buffer.channelRms ch ≤ Buffer.peak chans := by
  refine channelRms_le ch _ (buffer_peak_nonneg chans hne) ?_
  intro x hx
  exact le_trans (abs_le_channelPeak ch x hx)
    (le_reduceMax _ _ (List.mem_map.mpr ⟨ch, hch, rfl⟩))

/-- The buffer rms is at most the buffer peak and nonnegative. -/
theorem buffer_rms_le_peak (channels : ℕ) (chans : List (List ℝ)) (hc : 1 ≤ channels)
    (hlen : chans.length = channels) :
    Buffer.rms channels chans ≤ Buffer.peak chans ∧ 0 ≤ Buffer.rms channels chans := by
  have hne : chans ≠ [] := by
    intro hnil
    rw [hnil] at hlen
    simp at hlen
    omega
  have hcpos : (0 : ℝ) < channels := by exact_mod_cast hc
  constructor
  · unfold Buffer.rms
    rw [div_le_iff hcpos]
    have hb : ∀ y ∈ chans.map Buffer.channelRms, y ≤ Buffer.peak chans := by
      intro y hy
      obtain ⟨ch, hch, rfl⟩ := List.mem_map.mp hy
      exact channelRms_le_peak chans hne ch hch
    have := List.sum_le_card_nsmul (chans.map Buffer.channelRms) (Buffer.peak chans) hb
    rw [List.length_map, hlen, nsmul_eq_mul] at this
    calc (chans.map Buffer.channelRms).sum ≤ (channels : ℝ) * Buffer.peak chans := this
      _ = Buffer.peak chans * channels := by ring
  · unfold Buffer.rms
    refine div_nonneg (List.sum_nonneg ?_) (le_of_lt hcpos)
    intro y hy
    obtain ⟨ch, -, rfl⟩ := List.mem_map.mp hy
    exact Real.sqrt_nonneg _

/-- Elements of the combining zip stay nonnegative for a nonnegativity
preserving combiner. -/
theorem zipWithKeep_nonneg (f : ℝ → ℝ → ℝ)
    (hf : ∀ a b, 0 ≤ a → 0 ≤ b → 0 ≤ f a b) :
    ∀ (xs ys : List ℝ), (∀ x ∈ xs, 0 ≤ x) → (∀ y ∈ ys, 0 ≤ y) →
      ∀ z ∈ zipWithKeep f xs ys, 0 ≤ z := by
  intro xs
  induction xs with
  | nil =>
    intro ys hx hy z hz
    simp [zipWithKeep] at hz
  | cons a as ih =>
    intro ys hx hy z hz
    cases ys with
    | nil =>
      simp only [zipWithKeep, List.zipWith_nil_right, List.length_nil, List.drop_zero,
        List.nil_append] at hz
      exact hx z hz
    | cons b bs =>
      have hzz : z ∈ f a b :: zipWithKeep f as bs := by
        simpa [zipWithKeep] using hz
      rcases List.mem_cons.mp hzz with rfl | hz' 
      · exact hf a b (hx a (List.mem_cons_self a as)) (hy b (List.mem_cons_self b bs))
      · exact ih bs (fun x hxx => hx x (List.mem_cons_of_mem a hxx))
          (fun y hyy => hy y (List.mem_cons_of_mem b hyy)) z hz'

/-- Every entry of a channel magnitude spectrum is nonnegative. -/
theorem dftMag_nonneg (fftSize : ℕ) (x : List ℝ) :
    ∀ z ∈ Buffer.dftMag fftSize x, 0 ≤ z := by
  intro z hz
  obtain ⟨k, -, rfl⟩ := List.mem_map.mp hz
  exact Real.sqrt_nonneg _

/-- Every entry of the averaged spectrum is nonnegative. -/
theorem fftStage_bins_nonneg (channels : ℕ) (s : ProcessingSettings) (chans : List (List ℝ)) :
    ∀ z ∈ (Buffer.fftStage channels s chans).2, 0 ≤ z := by
  unfold Buffer.fftStage
  have main : ∀ (mags : List (List ℝ)) (acc : List ℝ),
      (∀ mg ∈ mags, ∀ v ∈ mg, 0 ≤ v) → (∀ v ∈ acc, 0 ≤ v) →
      ∀ z ∈ mags.foldl
        (fun acc mg => zipWithKeep (fun b v => b + v / (channels : ℝ)) acc mg) acc, 0 ≤ z := by
    intro mags
    induction mags with
    | nil => intro acc hm ha z hz; exact ha z hz
    | cons mg mgs ih =>
      intro acc hm ha z hz
      refine ih _ (fun m hmm => hm m (List.mem_cons_of_mem mg hmm)) ?_ z hz
      exact zipWithKeep_nonneg _
        (fun a b hA hB => add_nonneg hA (div_nonneg hB (Nat.cast_nonneg channels)))
        acc mg ha (hm mg (List.mem_cons_self mg mgs))
  refine main _ _ ?_ ?_
  · intro mg hmg v hv
    obtain ⟨ch, -, rfl⟩ := List.mem_map.mp hmg
    exact dftMag_nonneg s.fft_size ch v hv
  · intro v hv
    rw [List.eq_of_mem_replicate hv]

end BufferLemmas

/-- C5: analysis-buffer invariant.  After process_raw: if the frame is
all-zero every field of the buffer is zero; otherwise, in exact
arithmetic, peak dominates rms, rms is nonnegative, every entry of the
magnitude spectrum is nonnegative, and rms equals the mean across
channels of the per-channel rms values. -/
theorem c5_buffer_invariant (channels : ℕ) (s : ProcessingSettings) (data : List ℝ)
    (hC : 1 ≤ channels) :
    ((∀ x ∈ data, x = 0) →
      (∀ ch ∈ (Buffer.process_raw channels s data).f32_samples, ∀ x ∈ ch, x = 0) ∧
      (∀ x ∈ (Buffer.process_raw channels s data).mono_samples, x = 0) ∧
      (∀ x ∈ (Buffer.process_raw channels s data).freq_bins, x = 0) ∧
      (Buffer.process_raw channels s data).peak = 0 ∧
      (Buffer.process_raw channels s data).rms = 0) ∧
    (¬ (∀ x ∈ data, x = 0) →
      (Buffer.process_raw channels s data).rms ≤ (Buffer.process_raw channels s data).peak ∧
      0 ≤ (Buffer.process_raw channels s data).rms ∧
      (∀ x ∈ (Buffer.process_raw channels s data).freq_bins, 0 ≤ x) ∧
      (Buffer.process_raw channels s data).rms =
        ((Buffer.split_channels channels data).map Buffer.channelRms).sum / (channels : ℝ)) := by
  constructor
  · intro hz
    rw [Buffer.process_raw_zero channels s data hz]
    refine ⟨?_, ?_, ?_, rfl, rfl⟩
    · intro ch hch x hx
      rw [List.eq_of_mem_replicate hch] at hx
      exact List.eq_of_mem_replicate hx
    · intro x hx
      exact List.eq_of_mem_replicate hx
    · intro x hx
      exact List.eq_of_mem_replicate hx
  · intro hnz
    rw [Buffer.process_raw_nonzero channels s data hnz]
    obtain ⟨hle, hnn⟩ := buffer_rms_le_peak channels (Buffer.split_channels channels data) hC
      (split_channels_length channels data)
    exact ⟨hle, hnn, fftStage_bins_nonneg channels s _, rfl⟩

/-- C5 witness: the theorem applied to a mono frame containing a single
nonzero sample. -/
theorem c5_buffer_invariant_witness :
    (1 : ℕ) ≤ 1 ∧ (¬ (∀ x ∈ ([1] : List ℝ), x = 0) →
      (Buffer.process_raw 1 ProcessingSettings.standard [1]).rms ≤
        (Buffer.process_raw 1 ProcessingSettings.standard [1]).peak ∧
      0 ≤ (Buffer.process_raw 1 ProcessingSettings.standard [1]).rms ∧
      (∀ x ∈ (Buffer.process_raw 1 ProcessingSettings.standard [1]).freq_bins, 0 ≤ x) ∧
      (Buffer.process_raw 1 ProcessingSettings.standard [1]).rms =
        ((Buffer.split_channels 1 [1]).map Buffer.channelRms).sum / ((1 : ℕ) : ℝ)) :=
  ⟨le_rfl, (c5_buffer_invariant 1 ProcessingSettings.standard [1] le_rfl).2⟩

section SilenceLemmas

/-- The half-wave rectifier vanishes on nonpositive differences. -/
theorem halfRect_zero (a b : ℝ) (h : b ≤ a) : ((b - a) + |b - a|) / 2 = 0 := by
  rw [abs_of_nonpos (by linarith)]
  ring

/-- The logarithmic compression never exceeds its input on nonnegative
values. -/
theorem log_compress_le (a : ℝ) (ha : 0 ≤ a) : Real.log (1 + a * 0.1) ≤ a := by
  have hpos : (0 : ℝ) < 1 + a * 0.1 := by nlinarith
  have := Real.log_le_sub_one_of_pos hpos
  nlinarith

/-- The logarithmic compression is nonnegative on nonnegative values. -/
theorem log_compress_nonneg (a : ℝ) (ha : 0 ≤ a) : 0 ≤ Real.log (1 + a * 0.1) := by
  have : (1 : ℝ) ≤ 1 + a * 0.1 := by nlinarith
  exact Real.log_nonneg this

/-- A zip-product against an all-zero left list sums to zero. -/
theorem zipWith_mul_left_zero :
    ∀ (xs ys : List ℝ), (∀ x ∈ xs, x = 0) →
      (List.zipWith (fun a b => a * b) xs ys).sum = 0 := by
  intro xs
  induction xs with
  | nil => intro ys h; simp
  | cons x xs ih =>
    intro ys h
    cases ys with
    | nil => simp
    | cons y ys =>
      rw [List.zipWith_cons_cons, List.sum_cons, h x (List.mem_cons_self x xs),
        ih ys (fun z hz => h z (List.mem_cons_of_mem x hz)), zero_mul, zero_add]

/-- Every output of the mel filter application is either a freshly
computed band sum or an untouched entry of the output buffer. -/
theorem applyFilter_mem (bank : MelFilterBank) (bins out : List ℝ)
    (hbins : ∀ x ∈ bins, x = 0) :
    ∀ z ∈ bank.applyFilter bins out, z = 0 ∨ z ∈ out := by
  intro z hz
  unfold MelFilterBank.applyFilter at hz
  rcases List.mem_append.mp hz with h | h
  · obtain ⟨m, -, rfl⟩ := List.mem_map.mp h
    refine Or.inl (zipWith_mul_left_zero _ _ ?_)
    intro x hx
    exact hbins x (List.mem_of_mem_drop (List.mem_of_mem_take hx))
  · exact Or.inr (List.mem_of_mem_drop h)

/-- The rectified flux vanishes elementwise against an all-zero right
list when the left list is nonnegative. -/
theorem zipWith_rect_right_zero :
    ∀ (xs ys : List ℝ), (∀ x ∈ xs, 0 ≤ x) → (∀ y ∈ ys, y = 0) →
      ∀ z ∈ List.zipWith (fun a b => ((b - a) + |b - a|) / 2) xs ys, z = 0 := by
  intro xs
  induction xs with
  | nil => intro ys hx hy z hz; simp at hz
  | cons x xs ih =>
    intro ys hx hy z hz
    cases ys with
    | nil => simp at hz
    | cons y ys =>
      rw [List.zipWith_cons_cons] at hz
      rcases List.mem_cons.mp hz with rfl | hz'
      · rw [hy y (List.mem_cons_self y ys)]
        exact halfRect_zero x 0 (hx x (List.mem_cons_self x xs))
      · exact ih ys (fun u hu => hx u (List.mem_cons_of_mem x hu))
          (fun u hu => hy u (List.mem_cons_of_mem y hu)) z hz'

/-- The rectified flux of a nonnegative list against its own compression
vanishes elementwise. -/
theorem zipWith_rect_self_compress :
    ∀ (xs : List ℝ), (∀ x ∈ xs, 0 ≤ x) →
      ∀ z ∈ List.zipWith (fun a b => ((b - a) + |b - a|) / 2) xs
        (xs.map (fun x => Real.log (1 + x * 0.1))), z = 0 := by
  intro xs
  induction xs with
  | nil => intro hx z hz; simp at hz
  | cons x xs ih =>
    intro hx z hz
    rw [List.map_cons, List.zipWith_cons_cons] at hz
    rcases List.mem_cons.mp hz with rfl | hz'
    · exact halfRect_zero x _ (log_compress_le x (hx x (List.mem_cons_self x xs)))
    · exact ih (fun u hu => hx u (List.mem_cons_of_mem x hu)) z hz'

/-- The whole rectified-flux list of a zero input frame vanishes
elementwise, for any previous nonnegative compressed spectrum. -/
theorem flux_zero (bank : MelFilterBank) (old : List ℝ) (n : ℕ)
    (hold : ∀ x ∈ old, 0 ≤ x) :
    ∀ z ∈ List.zipWith (fun a b => ((b - a) + |b - a|) / 2) old
      ((bank.applyFilter (List.replicate n 0) old).map
        (fun x => Real.log (1 + x * 0.1))), z = 0 := by
  have hbins : ∀ x ∈ List.replicate n (0 : ℝ), x = 0 := fun x hx =>
    List.eq_of_mem_replicate hx
  set k := min bank.filter.length old.length with hk
  have hksplit : bank.applyFilter (List.replicate n 0) old =
      (List.range k).map (fun m =>
        (List.zipWith (fun f w => f * w)
          (((List.replicate n (0 : ℝ)).drop
            ⌊bank.points.getD m 0 / ((bank.sample_rate : ℝ) / (bank.fft_size : ℝ))⌋₊).take
            (bank.filter.getD m []).length) (bank.filter.getD m [])).sum) ++ old.drop k :=
    rfl
  have hheadzero : ∀ y ∈ (List.range k).map (fun m =>
      (List.zipWith (fun f w => f * w)
        (((List.replicate n (0 : ℝ)).drop
          ⌊bank.points.getD m 0 / ((bank.sample_rate : ℝ) / (bank.fft_size : ℝ))⌋₊).take
          (bank.filter.getD m []).length) (bank.filter.getD m [])).sum), y = 0 := by
    intro y hy
    obtain ⟨m, -, rfl⟩ := List.mem_map.mp hy
    refine zipWith_mul_left_zero _ _ ?_
    intro x hx
    exact hbins x (List.mem_of_mem_drop (List.mem_of_mem_take hx))
  have hheadlen : ((List.range k).map (fun m =>
      (List.zipWith (fun f w => f * w)
        (((List.replicate n (0 : ℝ)).drop
          ⌊bank.points.getD m 0 / ((bank.sample_rate : ℝ) / (bank.fft_size : ℝ))⌋₊).take
          (bank.filter.getD m []).length) (bank.filter.getD m [])).sum)).length = k := by
    rw [List.length_map, List.length_range]
  intro z hz
  rw [hksplit, List.map_append] at hz
  nth_rewrite 1 [← List.take_append_drop k old] at hz
  have hlen : (List.take k old).length =
      (((List.range k).map (fun m =>
        (List.zipWith (fun f w => f * w)
          (((List.replicate n (0 : ℝ)).drop
            ⌊bank.points.getD m 0 / ((bank.sample_rate : ℝ) / (bank.fft_size : ℝ))⌋₊).take
            (bank.filter.getD m []).length) (bank.filter.getD m [])).sum)).map
        (fun x => Real.log (1 + x * 0.1))).length := by
    rw [List.length_take, List.length_map, hheadlen, hk]
    omega
  rw [List.zipWith_append _ _ _ _ _ hlen] at hz
  rcases List.mem_append.mp hz with h | h
  · refine zipWith_rect_right_zero _ _ ?_ ?_ z h
    · intro u hu
      exact hold u (List.mem_of_mem_take hu)
    · intro u hu
      obtain ⟨v, hv, rfl⟩ := List.mem_map.mp hu
      rw [hheadzero v hv]
      simp
  · exact zipWith_rect_self_compress _ (fun u hu => hold u (List.mem_of_mem_drop hu)) z h

/-- The compressed spectrum stored after a zero frame stays
nonnegative. -/
theorem compressed_nonneg (bank : MelFilterBank) (old : List ℝ) (n : ℕ)
    (hold : ∀ x ∈ old, 0 ≤ x) :
    ∀ z ∈ (bank.applyFilter (List.replicate n 0) old).map
      (fun x => Real.log (1 + x * 0.1)), 0 ≤ z := by
  intro z hz
  obtain ⟨v, hv, rfl⟩ := List.mem_map.mp hz
  rcases applyFilter_mem bank _ old (fun x hx => List.eq_of_mem_replicate hx) v hv with
    rfl | hvold
  · exact log_compress_nonneg 0 le_rfl
  · exact log_compress_nonneg v (hold v hvold)

end SilenceLemmas

/-- On a zero input frame the SpecFlux detector always emits the
diagnostic Raw 0 first, emits the four onsets exactly as its four
advanced thresholds fire on the zero score, keeps its compressed
spectrum nonnegative, and advances each threshold by one is_above call
on the value 0. -/
theorem SpecFlux.detect_zero (sf : SpecFlux) (n : ℕ) (p r : ℝ)
    (hspec : ∀ x ∈ sf.spectrum, 0 ≤ x) :
    (sf.detect (List.replicate n 0) p r).1 =
      [lights.Onset.Raw 0] ++
        (if (sf.threshold.full.is_above 0).2 then [lights.Onset.Full r] else []) ++
        (if (sf.threshold.drum.is_above 0).2 then [lights.Onset.Drum r] else []) ++
        (if (sf.threshold.hihat.is_above 0).2 then [lights.Onset.Hihat p] else []) ++
        (if (sf.threshold.note.is_above 0).2 then
          [lights.Onset.Note r (indexOfMax (List.replicate n (0 : ℝ)) % 65536)] else []) ∧
    (∀ x ∈ (sf.detect (List.replicate n 0) p r).2.spectrum, 0 ≤ x) ∧
    (sf.detect (List.replicate n 0) p r).2.threshold.full = (sf.threshold.full.is_above 0).1 ∧
    (sf.detect (List.replicate n 0) p r).2.threshold.drum = (sf.threshold.drum.is_above 0).1 ∧
    (sf.detect (List.replicate n 0) p r).2.threshold.hihat =
      (sf.threshold.hihat.is_above 0).1 ∧
    (sf.detect (List.replicate n 0) p r).2.threshold.note = (sf.threshold.note.is_above 0).1 := by
  have hflux := flux_zero sf.filter_bank sf.spectrum n hspec
  have hw : (List.zipWith (fun a b => ((b - a) + |b - a|) / 2) sf.spectrum
      ((sf.filter_bank.applyFilter (List.replicate n 0) sf.spectrum).map
        (fun x => Real.log (1 + x * 0.1)))).sum = 0 :=
    List.sum_eq_zero hflux
  have hzw : ∀ mask : List ℝ,
      (List.zipWith (fun d w => d * w)
        (List.zipWith (fun a b => ((b - a) + |b - a|) / 2) sf.spectrum
          ((sf.filter_bank.applyFilter (List.replicate n 0) sf.spectrum).map
            (fun x => Real.log (1 + x * 0.1)))) mask).sum = 0 :=
    fun mask => zipWith_mul_left_zero _ mask hflux
  refine ⟨?_, ?_, ?_, ?_, ?_, ?_⟩
  · show ([lights.Onset.Raw _] ++ _ ++ _ ++ _ ++ _) = _
    rw [hw, hzw kickMask, hzw hihatMask, hzw snareMask]
  · show ∀ x ∈ (sf.filter_bank.applyFilter (List.replicate n 0) sf.spectrum).map
      (fun x => Real.log (1 + x * 0.1)), 0 ≤ x
    exact compressed_nonneg sf.filter_bank sf.spectrum n hspec
  · show (sf.threshold.full.is_above _).1 = _
    rw [hw]
  · show (sf.threshold.drum.is_above _).1 = _
    rw [hzw kickMask]
  · show (sf.threshold.hihat.is_above _).1 = _
    rw [hzw hihatMask]
  · show (sf.threshold.note.is_above _).1 = _
    rw [hzw snareMask]

/-- C2 counterexample: a freshly initialised SpecFlux detector fed two
all-zero frames (with zero peak and rms, as the zeroed buffer provides)
emits a Full onset of strength 0 on the second frame, contradicting the
claim that silence yields nothing but the diagnostic Raw 0: the four
thresholds reach last_onset 2 together on the second call. -/
theorem c2_silence_neutrality_counterexample :
    lights.Onset.Full 0 ∈
      (((SpecFlux.init 48000 2048).detect (List.replicate 1025 0) 0 0).2.detect
        (List.replicate 1025 0) 0 0).1 := by
  have hspec0 : ∀ x ∈ (SpecFlux.init 48000 2048).spectrum, (0 : ℝ) ≤ x := by
    intro x hx
    have : x ∈ List.replicate 82 (0 : ℝ) := hx
    rw [List.eq_of_mem_replicate this]
  obtain ⟨-, hs1spec, hfull1, -, -, -⟩ :=
    SpecFlux.detect_zero (SpecFlux.init 48000 2048) 1025 0 0 hspec0
  obtain ⟨hlist2, -, -, -, -, -⟩ :=
    SpecFlux.detect_zero (((SpecFlux.init 48000 2048).detect
      (List.replicate 1025 0) 0 0).2) 1025 0 0 hs1spec
  rw [hlist2, hfull1]
  set t0 := (SpecFlux.init 48000 2048).threshold.full with ht0
  have ht0past : t0.past_samples = List.replicate 8 0 := rfl
  have ht0last : t0.last_onset = 0 := rfl
  have ht0dyn : t0.dynamic_threshold = 8 / 10 := rfl
  have ht0fix : t0.fixed_threshold = 5 := rfl
  obtain ⟨ht1last, -⟩ := AdvancedThreshold.is_above_no_reset t0 0
    (by rw [ht0past]; intro x hx; rw [List.eq_of_mem_replicate hx])
    (by rw [ht0dyn]; norm_num) (by rw [ht0fix]; norm_num)
  have ht1past : (t0.is_above 0).1.past_samples = 0 :: List.replicate 8 0 := by
    rw [AdvancedThreshold.is_above_fst_past, ht0past]
    simp [pushFrontCapped]
  obtain ⟨-, ht2snd⟩ := AdvancedThreshold.is_above_no_reset ((t0.is_above 0).1) 0
    (by
      rw [ht1past]
      intro x hx
      rcases List.mem_cons.mp hx with rfl | hx'
      · exact le_rfl
      · rw [List.eq_of_mem_replicate hx'])
    (by rw [(AdvancedThreshold.is_above_fst_params t0 0).2.2.1, ht0dyn]; norm_num)
    (by rw [(AdvancedThreshold.is_above_fst_params t0 0).2.2.2.2, ht0fix]; norm_num)
  rw [ht1last, ht0last] at ht2snd
  rw [ht2snd, if_pos (by decide : ((0 : ℕ) + 1 + 1 == 2) = true)]
  exact List.mem_append_left _ (List.mem_append_left _ (List.mem_append_left _
    (List.mem_append_right _ (List.mem_cons_self _ _))))

/-- C2 (amended): silence neutrality.  After process_raw on an all-zero
frame, every field of the analysis buffer is exactly zero.  On the
resulting all-zero spectrum the HFC detector emits nothing, and the
SpecFlux detector emits exactly the diagnostic Raw 0 provided that none
of its four advanced thresholds has its internal last_onset counter at 1
when the frame arrives (that proviso fails exactly when a tentative
onset was flagged two frames earlier or the detector is at its second
frame after construction, in which case the threshold fires even on
silence). -/
theorem c2_silence_neutrality :
    (∀ (channels : ℕ) (s : ProcessingSettings) (data : List ℝ), (∀ x ∈ data, x = 0) →
      (∀ ch ∈ (Buffer.process_raw channels s data).f32_samples, ∀ x ∈ ch, x = 0) ∧
      (∀ x ∈ (Buffer.process_raw channels s data).mono_samples, x = 0) ∧
      (∀ x ∈ (Buffer.process_raw channels s data).freq_bins, x = 0) ∧
      (Buffer.process_raw channels s data).peak = 0 ∧
      (Buffer.process_raw channels s data).rms = 0) ∧
    (∀ (sf : SpecFlux) (n : ℕ) (p r : ℝ),
      (∀ x ∈ sf.spectrum, 0 ≤ x) →
      sf.threshold.full.last_onset ≠ 1 → sf.threshold.drum.last_onset ≠ 1 →
      sf.threshold.hihat.last_onset ≠ 1 → sf.threshold.note.last_onset ≠ 1 →
      (sf.detect (List.replicate n 0) p r).1 = [lights.Onset.Raw 0]) ∧
    (∀ (h : Hfc) (n : ℕ) (p r : ℝ), (h.detect (List.replicate n 0) p r).1 = []) := by
  refine ⟨?_, ?_, ?_⟩
  · intro channels s data hz
    rw [Buffer.process_raw_zero channels s data hz]
    refine ⟨?_, ?_, ?_, rfl, rfl⟩
    · intro ch hch x hx
      rw [List.eq_of_mem_replicate hch] at hx
      exact List.eq_of_mem_replicate hx
    · intro x hx
      exact List.eq_of_mem_replicate hx
    · intro x hx
      exact List.eq_of_mem_replicate hx
  · intro sf n p r hspec h1 h2 h3 h4
    obtain ⟨hlist, -, -, -, -, -⟩ := SpecFlux.detect_zero sf n p r hspec
    rw [hlist, AdvancedThreshold.is_above_false_of_ne_one _ _ h1,
      AdvancedThreshold.is_above_false_of_ne_one _ _ h2,
      AdvancedThreshold.is_above_false_of_ne_one _ _ h3,
      AdvancedThreshold.is_above_false_of_ne_one _ _ h4]
    simp
  · intro h n p r
    unfold Hfc.detect
    rw [if_pos (fun x hx => List.eq_of_mem_replicate hx)]

/-- C2 witness: the SpecFlux part of the theorem applied to a freshly
initialised detector (whose counters are all 0) on one all-zero frame. -/
theorem c2_silence_neutrality_witness :
    ((SpecFlux.init 48000 2048).detect (List.replicate 1025 0) 0 0).1 =
      [lights.Onset.Raw 0] :=
  c2_silence_neutrality.2.1 (SpecFlux.init 48000 2048) 1025 0 0
    (fun x hx => by
      have : x ∈ List.replicate 82 (0 : ℝ) := hx
      rw [List.eq_of_mem_replicate this])
    (by intro hc; exact absurd hc (by decide))
    (by intro hc; exact absurd hc (by decide))
    (by intro hc; exact absurd hc (by decide))
    (by intro hc; exact absurd hc (by decide))

end MusicSync
